import Mathlib

/- Verification development for the edash-packager core: a shallow embedding of
the AES encryptor layer (aes_encryptor.cc) and of the multi-segment segmenter
(multi_segment_segmenter.cc), with theorems checking the natural-language
specification against the embedded code.

Bytes are modelled as natural numbers; every reachable byte value is below 256
and the theorems carry that invariant explicitly where the arithmetic needs it.
Machine-integer wrap-around is written as an explicit `% 256` / `% 2 ^ 64`. -/

set_option autoImplicit false

/-! ## AES-CTR: Increment64 and the counter block (aes_encryptor.cc) -/

/-- Little-endian increment of a byte list by one.  This is the loop of
`Increment64` in aes_encryptor.cc read from the last (least significant) byte
toward the first: each byte is incremented modulo 256 and the loop stops at the
first byte that does not wrap to zero. -/
def incrementBytesLE : List Nat → List Nat
  | [] => []
  | b :: rest =>
    if (b + 1) % 256 = 0 then 0 :: incrementBytesLE rest
    else ((b + 1) % 256) :: rest

/-- `Increment64` from aes_encryptor.cc: increment an 8-byte big-endian counter
by one (the C loop runs `i = 7 .. 0`, which is the little-endian order of the
reversed list).  The overflow flag returned by the C function is ignored by its
only caller, so it is not modelled. -/
def increment64 (counter : List Nat) : List Nat :=
  (incrementBytesLE counter.reverse).reverse

/-- Value of a byte list read little-endian. -/
def leVal : List Nat → Nat
  | [] => 0
  | b :: rest => b + 256 * leVal rest

/-- Value of a byte list read big-endian (network byte order, as in the CENC
counter block). -/
def beVal (l : List Nat) : Nat := leVal l.reverse

lemma leVal_lt_of_bytes {l : List Nat} (h : ∀ b ∈ l, b < 256) :
    leVal l < 256 ^ l.length := by
  induction l with
  | nil => simp [leVal]
  | cons b rest ih =>
    have hb : b < 256 := h b (by simp)
    have hr := ih (fun x hx => h x (by simp [hx]))
    simp only [leVal, List.length_cons]
    calc b + 256 * leVal rest < 256 * (leVal rest + 1) := by omega
      _ ≤ 256 * 256 ^ rest.length := Nat.mul_le_mul_left _ hr
      _ = 256 ^ (rest.length + 1) := by ring

lemma incrementBytesLE_length (l : List Nat) :
    (incrementBytesLE l).length = l.length := by
  induction l with
  | nil => rfl
  | cons b rest ih =>
    simp only [incrementBytesLE]
    split <;> simp [ih]

lemma incrementBytesLE_bytes {l : List Nat} (h : ∀ b ∈ l, b < 256) :
    ∀ b ∈ incrementBytesLE l, b < 256 := by
  induction l with
  | nil => simp [incrementBytesLE]
  | cons b rest ih =>
    have hrest : ∀ x ∈ rest, x < 256 := fun x hx => h x (by simp [hx])
    simp only [incrementBytesLE]
    split
    · intro x hx
      rcases List.mem_cons.1 hx with hx | hx
      · omega
      · exact ih hrest x hx
    · intro x hx
      rcases List.mem_cons.1 hx with hx | hx
      · subst hx; exact Nat.mod_lt _ (by norm_num)
      · exact hrest x hx

lemma leVal_incrementBytesLE {l : List Nat} (h : ∀ b ∈ l, b < 256) :
    leVal (incrementBytesLE l) = (leVal l + 1) % 256 ^ l.length := by
  induction l with
  | nil => simp [incrementBytesLE, leVal]
  | cons b rest ih =>
    have hb : b < 256 := h b (by simp)
    have hrest : ∀ x ∈ rest, x < 256 := fun x hx => h x (by simp [hx])
    by_cases hwrap : (b + 1) % 256 = 0
    · have hb255 : b = 255 := by omega
      simp only [incrementBytesLE, if_pos hwrap, leVal, List.length_cons]
      rw [ih hrest, hb255]
      have h1 : 255 + 256 * leVal rest + 1 = 256 * (leVal rest + 1) := by ring
      have h2 : (256 : Nat) ^ (rest.length + 1) = 256 * 256 ^ rest.length := by
        ring
      rw [h1, h2, Nat.mul_mod_mul_left]
      ring
    · have hb1 : b + 1 < 256 := by omega
      have hmod : (b + 1) % 256 = b + 1 := Nat.mod_eq_of_lt hb1
      simp only [incrementBytesLE, if_neg hwrap, leVal, List.length_cons, hmod]
      have hv := leVal_lt_of_bytes hrest
      have hlt : b + 256 * leVal rest + 1 < 256 ^ (rest.length + 1) := by
        calc b + 256 * leVal rest + 1 < 256 * (leVal rest + 1) := by omega
          _ ≤ 256 * 256 ^ rest.length := Nat.mul_le_mul_left _ hv
          _ = 256 ^ (rest.length + 1) := by ring
      rw [Nat.mod_eq_of_lt hlt]
      ring

lemma increment64_length (l : List Nat) : (increment64 l).length = l.length := by
  simp [increment64, incrementBytesLE_length]

lemma increment64_bytes {l : List Nat} (h : ∀ b ∈ l, b < 256) :
    ∀ b ∈ increment64 l, b < 256 := by
  intro b hb
  simp only [increment64, List.mem_reverse] at hb
  exact incrementBytesLE_bytes (by simpa using h) b hb

lemma beVal_increment64 {l : List Nat} (h : ∀ b ∈ l, b < 256) :
    beVal (increment64 l) = (beVal l + 1) % 256 ^ l.length := by
  simp only [beVal, increment64, List.reverse_reverse]
  rw [leVal_incrementBytesLE (by simpa using h)]
  simp

/-- State of an `AesCtrEncryptor` (aes_encryptor.cc): the 16-byte counter
block, the cached encrypted counter block, and the offset into the current
keystream block.  The AES key itself is abstracted: `ctrCrypt` below takes the
block-encryption function `AES_encrypt(·, aes_key())` as a parameter. -/
structure AesCtrState where
  counter : List Nat
  encryptedCounter : List Nat
  blockOffset : Nat
  deriving DecidableEq, Inhabited

/-- `AesCtrEncryptor::SetIvInternal`: reset the block offset to 0 and load the
counter with the IV resized to 16 bytes (zero padded; `std::vector::resize`
truncates when the IV is longer). -/
def setIvInternalCtr (iv : List Nat) : AesCtrState :=
  { counter := (iv ++ List.replicate (16 - iv.length) 0).take 16
    encryptedCounter := List.replicate 16 0
    blockOffset := 0 }

/-- The byte loop of `AesCtrEncryptor::CryptInternal`: for each plaintext byte,
when the block offset is 0 the counter block is AES-encrypted into the cached
keystream block and the low 8 bytes of the counter (bytes 8..15) are
incremented; the byte is XORed against the keystream byte at the block offset,
and the offset advances modulo the AES block size (16). -/
def ctrCrypt (aesE : List Nat → List Nat) :
    List Nat → AesCtrState → List Nat × AesCtrState
  | [], s => ([], s)
  | p :: ps, s =>
    let s1 : AesCtrState :=
      if s.blockOffset = 0 then
        { s with
          encryptedCounter := aesE s.counter
          counter := s.counter.take 8 ++ increment64 (s.counter.drop 8) }
      else s
    let c := p ^^^ s1.encryptedCounter.getD s.blockOffset 0
    let s2 : AesCtrState := { s1 with blockOffset := (s.blockOffset + 1) % 16 }
    let rest := ctrCrypt aesE ps s2
    (c :: rest.1, rest.2)

/-- `AesCtrEncryptor::CryptInternal`: fails when the output capacity is below
the plaintext size, and otherwise reports a ciphertext size equal to the
plaintext size and runs the byte loop. -/
def ctrCryptInternal (aesE : List Nat → List Nat) (plaintext : List Nat)
    (ciphertextSize : Nat) (s : AesCtrState) :
    Option (List Nat × Nat × AesCtrState) :=
  if ciphertextSize < plaintext.length then none
  else some ((ctrCrypt aesE plaintext s).1, plaintext.length,
    (ctrCrypt aesE plaintext s).2)

/-- Number of counter increments performed by the byte loop when it processes
`n` bytes starting at block offset `o`: one increment at every byte position
where the offset is 0. -/
def nInc : Nat → Nat → Nat
  | _, 0 => 0
  | o, n + 1 => (if o = 0 then 1 else 0) + nInc ((o + 1) % 16) n

lemma nInc_closed : ∀ n o, o < 16 →
    nInc o n = (o + n + 15) / 16 - (o + 15) / 16 := by
  intro n
  induction n with
  | zero => intro o _; simp [nInc]
  | succ n ih =>
    intro o ho
    by_cases h0 : o = 0
    · subst h0
      have h1 := ih 1 (by norm_num)
      have e1 : (0 + 1) % 16 = 1 := by norm_num
      simp [nInc, e1]
      omega
    · by_cases h15 : o = 15
      · subst h15
        have h1 := ih 0 (by norm_num)
        have e1 : (15 + 1) % 16 = 0 := by norm_num
        simp only [nInc, e1, if_neg h0]
        omega
      · have h1 := ih (o + 1) (by omega)
        have e1 : (o + 1) % 16 = o + 1 := Nat.mod_eq_of_lt (by omega)
        simp only [nInc, e1, if_neg h0]
        omega

lemma nInc_zero (n : Nat) : nInc 0 n = (n + 15) / 16 := by
  have := nInc_closed n 0 (by norm_num)
  omega

lemma ctrCrypt_counter (aesE : List Nat → List Nat) :
    ∀ (p : List Nat) (s : AesCtrState),
    s.counter.length = 16 → (∀ b ∈ s.counter, b < 256) →
    ((ctrCrypt aesE p s).2.counter.length = 16 ∧
      (∀ b ∈ (ctrCrypt aesE p s).2.counter, b < 256)) ∧
    (ctrCrypt aesE p s).2.counter.take 8 = s.counter.take 8 ∧
    beVal ((ctrCrypt aesE p s).2.counter.drop 8) =
      (beVal (s.counter.drop 8) + nInc s.blockOffset p.length) % 2 ^ 64 := by
  intro p
  induction p with
  | nil =>
    intro s hlen hbytes
    refine ⟨⟨hlen, hbytes⟩, rfl, ?_⟩
    simp only [ctrCrypt, List.length_nil, nInc]
    have : beVal (s.counter.drop 8) < 2 ^ 64 := by
      have h8 : (s.counter.drop 8).length = 8 := by
        simp [List.length_drop, hlen]
      have := leVal_lt_of_bytes (l := (s.counter.drop 8).reverse)
        (fun b hb => hbytes b (List.mem_of_mem_drop (List.mem_reverse.1 hb)))
      simp only [List.length_reverse, h8] at this
      calc beVal (s.counter.drop 8) < 256 ^ 8 := this
        _ = 2 ^ 64 := by norm_num
    omega
  | cons q ps ih =>
    intro s hlen hbytes
    by_cases h0 : s.blockOffset = 0
    · -- a fresh keystream block: the counter low half is incremented
      have hdlen : (s.counter.drop 8).length = 8 := by
        simp [List.length_drop, hlen]
      have htlen : (s.counter.take 8).length = 8 := by
        simp [List.length_take, hlen]
      have hdbytes : ∀ b ∈ s.counter.drop 8, b < 256 :=
        fun b hb => hbytes b (List.mem_of_mem_drop hb)
      set c' : List Nat := s.counter.take 8 ++ increment64 (s.counter.drop 8)
        with hc'
      have hlen' : c'.length = 16 := by
        simp [hc', List.length_append, htlen, increment64_length, hdlen]
      have hbytes' : ∀ b ∈ c', b < 256 := by
        intro b hb
        rcases List.mem_append.1 hb with hb | hb
        · exact hbytes b (List.mem_of_mem_take hb)
        · exact increment64_bytes hdbytes b hb
      have htake' : c'.take 8 = s.counter.take 8 := by
        rw [hc', List.take_left' htlen]
      have hdrop' : c'.drop 8 = increment64 (s.counter.drop 8) := by
        rw [hc', List.drop_left' htlen]
      have hstep :
          ctrCrypt aesE (q :: ps) s =
            ((q ^^^ (aesE s.counter).getD s.blockOffset 0) ::
                (ctrCrypt aesE ps
                  { counter := c', encryptedCounter := aesE s.counter,
                    blockOffset := (s.blockOffset + 1) % 16 }).1,
              (ctrCrypt aesE ps
                { counter := c', encryptedCounter := aesE s.counter,
                  blockOffset := (s.blockOffset + 1) % 16 }).2) := by
        simp [ctrCrypt, if_pos h0, hc']
      obtain ⟨⟨ihlen, ihbytes⟩, ihtake, ihval⟩ :=
        ih { counter := c', encryptedCounter := aesE s.counter,
             blockOffset := (s.blockOffset + 1) % 16 } hlen' hbytes'
      rw [hstep]
      refine ⟨⟨ihlen, ihbytes⟩, ?_, ?_⟩
      · simpa [htake'] using ihtake
      · simp only at ihval
        have hrec : nInc 0 (ps.length + 1) = 1 + nInc 1 ps.length := by
          simp [nInc]
        have e1 : (0 + 1) % 16 = 1 := by norm_num
        rw [ihval, hdrop', beVal_increment64 hdbytes, hdlen]
        have h2 : (256 : Nat) ^ 8 = 2 ^ 64 := by norm_num
        rw [h2, Nat.mod_add_mod, h0, e1]
        simp only [List.length_cons, hrec]
        omega
    · have hstep :
          ctrCrypt aesE (q :: ps) s =
            ((q ^^^ s.encryptedCounter.getD s.blockOffset 0) ::
                (ctrCrypt aesE ps
                  { s with blockOffset := (s.blockOffset + 1) % 16 }).1,
              (ctrCrypt aesE ps
                { s with blockOffset := (s.blockOffset + 1) % 16 }).2) := by
        simp [ctrCrypt, if_neg h0]
      obtain ⟨⟨ihlen, ihbytes⟩, ihtake, ihval⟩ :=
        ih { s with blockOffset := (s.blockOffset + 1) % 16 } hlen hbytes
      rw [hstep]
      refine ⟨⟨ihlen, ihbytes⟩, ihtake, ?_⟩
      simp only at ihval
      rw [ihval]
      simp [nInc, if_neg h0]

lemma ctrCrypt_append (aesE : List Nat → List Nat) :
    ∀ (p1 p2 : List Nat) (s : AesCtrState),
    ctrCrypt aesE (p1 ++ p2) s =
      ((ctrCrypt aesE p1 s).1 ++ (ctrCrypt aesE p2 (ctrCrypt aesE p1 s).2).1,
        (ctrCrypt aesE p2 (ctrCrypt aesE p1 s).2).2) := by
  intro p1
  induction p1 with
  | nil => intro p2 s; simp [ctrCrypt]
  | cons q ps ih =>
    intro p2 s
    simp only [List.cons_append, ctrCrypt, List.append_eq]
    rw [ih]

/-- C2: during the encryption of one sample (the counter starts at block
offset 0), bytes 8..15 of the counter block, read as a 64-bit big-endian
integer, are incremented by one for each 16-byte keystream block started, i.e.
by `ceil(n / 16)` after `n` bytes of ciphertext; the increment wraps modulo
`2 ^ 64` inside bytes 8..15 only, and bytes 0..7 (the IV prefix) are never
modified. -/
theorem claim_C2_ctr_counter_increment (aesE : List Nat → List Nat)
    (p : List Nat) (s : AesCtrState) (hoff : s.blockOffset = 0)
    (hlen : s.counter.length = 16) (hbytes : ∀ b ∈ s.counter, b < 256) :
    (ctrCrypt aesE p s).2.counter.take 8 = s.counter.take 8 ∧
    beVal ((ctrCrypt aesE p s).2.counter.drop 8) =
      (beVal (s.counter.drop 8) + (p.length + 15) / 16) % 2 ^ 64 := by
  obtain ⟨_, htake, hval⟩ := ctrCrypt_counter aesE p s hlen hbytes
  refine ⟨htake, ?_⟩
  rw [hval, hoff, nInc_zero]

/-- Witness for C2: a 17-byte plaintext with an all-0xFF counter; the check
instantiates the theorem at a concrete input (and exhibits the low-64-bit
wrap-around, the high half staying all 0xFF). -/
theorem claim_C2_witness :
    (ctrCrypt (fun _ => List.replicate 16 0) (List.replicate 17 0)
        (setIvInternalCtr (List.replicate 16 255))).2.counter.take 8 =
      (setIvInternalCtr (List.replicate 16 255)).counter.take 8 ∧
    beVal ((ctrCrypt (fun _ => List.replicate 16 0) (List.replicate 17 0)
        (setIvInternalCtr (List.replicate 16 255))).2.counter.drop 8) =
      (beVal ((setIvInternalCtr (List.replicate 16 255)).counter.drop 8) +
        ((List.replicate 17 (0 : Nat)).length + 15) / 16) % 2 ^ 64 :=
  claim_C2_ctr_counter_increment (fun _ => List.replicate 16 0)
    (List.replicate 17 0) (setIvInternalCtr (List.replicate 16 255))
    rfl (by decide) (by decide)

/-- C3: whenever the output capacity is at least the plaintext size,
`AesCtrEncryptor::CryptInternal` succeeds and reports a ciphertext size equal
to the plaintext size; and encrypting `p1 ++ p2` in one call produces the
concatenation of the ciphertexts of two consecutive calls on `p1` then `p2`
(the block offset and counter being carried across calls), ending in the same
state. -/
theorem claim_C3_ctr_size_and_concatenation (aesE : List Nat → List Nat)
    (p1 p2 : List Nat) (cap1 cap2 cap12 : Nat) (s : AesCtrState)
    (h1 : p1.length ≤ cap1) (h2 : p2.length ≤ cap2)
    (h12 : p1.length + p2.length ≤ cap12) :
    ∃ c1 c2 c12 s1 s2 s12,
      ctrCryptInternal aesE p1 cap1 s = some (c1, p1.length, s1) ∧
      ctrCryptInternal aesE p2 cap2 s1 = some (c2, p2.length, s2) ∧
      ctrCryptInternal aesE (p1 ++ p2) cap12 s =
        some (c12, (p1 ++ p2).length, s12) ∧
      c12 = c1 ++ c2 ∧ s12 = s2 := by
  refine ⟨(ctrCrypt aesE p1 s).1,
    (ctrCrypt aesE p2 (ctrCrypt aesE p1 s).2).1,
    (ctrCrypt aesE (p1 ++ p2) s).1,
    (ctrCrypt aesE p1 s).2,
    (ctrCrypt aesE p2 (ctrCrypt aesE p1 s).2).2,
    (ctrCrypt aesE (p1 ++ p2) s).2, ?_, ?_, ?_, ?_, ?_⟩
  · rw [ctrCryptInternal, if_neg (by omega)]
  · rw [ctrCryptInternal, if_neg (by omega)]
  · rw [ctrCryptInternal, if_neg (by simp; omega)]
  · rw [ctrCrypt_append]
  · rw [ctrCrypt_append]

/-- Witness for C3 at a concrete split `[1] / [2, 3]`. -/
theorem claim_C3_witness :
    ∃ c1 c2 c12 s1 s2 s12,
      ctrCryptInternal (fun _ => List.replicate 16 7) [1] 1
          (setIvInternalCtr (List.replicate 8 0)) =
        some (c1, ([1] : List Nat).length, s1) ∧
      ctrCryptInternal (fun _ => List.replicate 16 7) [2, 3] 2 s1 =
        some (c2, ([2, 3] : List Nat).length, s2) ∧
      ctrCryptInternal (fun _ => List.replicate 16 7) ([1] ++ [2, 3]) 3
          (setIvInternalCtr (List.replicate 8 0)) =
        some (c12, (([1] : List Nat) ++ [2, 3]).length, s12) ∧
      c12 = c1 ++ c2 ∧ s12 = s2 :=
  claim_C3_ctr_size_and_concatenation (fun _ => List.replicate 16 7)
    [1] [2, 3] 1 2 3 (setIvInternalCtr (List.replicate 8 0))
    (by decide) (by decide) (by decide)

/-! ## AES key setup and the AES-CBC encryptor (aes_encryptor.cc) -/

/-- `IsKeySizeValidForAes` from aes_encryptor.cc: AES defines three key sizes,
128, 192 and 256 bits (16, 24 and 32 bytes). -/
def IsKeySizeValidForAes (keySize : Nat) : Bool :=
  keySize == 16 || keySize == 24 || keySize == 32

/-- `AesEncryptor::InitializeWithIv`: reject invalid key sizes, otherwise set
the AES key and return the result of `SetIv`.  The OpenSSL key schedule is
abstract, so the installed key is reported as the raw key bytes; `setIv` is
the (virtual) `SetIv` step, passed as a parameter.  The result is the returned
boolean together with the installed key (`none` when rejected). -/
def initializeWithIv (key iv : List Nat) (setIv : List Nat → Bool) :
    Bool × Option (List Nat) :=
  if ¬IsKeySizeValidForAes key.length then (false, none)
  else (setIv iv, some key)

/-- The CBC padding schemes of `AesCbcEncryptor`. -/
inductive CbcPaddingScheme
  | kNoPadding
  | kPkcs5Padding
  | kCtsPadding
  deriving DecidableEq, Inhabited

/-- The constant-IV flag of `AesCryptor`. -/
inductive ConstantIvFlag
  | kUseConstantIv
  | kDontUseConstantIv
  deriving DecidableEq, Inhabited

/-- Configuration stored by a successfully constructed `AesCbcEncryptor`. -/
structure AesCbcEncryptorModel where
  padding_scheme : CbcPaddingScheme
  constant_iv_flag : ConstantIvFlag
  deriving DecidableEq, Inhabited

/-- The two-argument `AesCbcEncryptor` constructor.  The `CHECK_EQ` aborts the
process when a padding scheme other than `kNoPadding` is combined with a
non-constant IV; the abort is modelled as `none`. -/
def aesCbcEncryptorNew (paddingScheme : CbcPaddingScheme)
    (constantIvFlag : ConstantIvFlag) : Option AesCbcEncryptorModel :=
  if paddingScheme ≠ CbcPaddingScheme.kNoPadding ∧
      constantIvFlag ≠ ConstantIvFlag.kUseConstantIv then none
  else some { padding_scheme := paddingScheme, constant_iv_flag := constantIvFlag }

/-- The single-argument `AesCbcEncryptor` constructor, which delegates with
`kDontUseConstantIv`. -/
def aesCbcEncryptorNewDefault (paddingScheme : CbcPaddingScheme) :
    Option AesCbcEncryptorModel :=
  aesCbcEncryptorNew paddingScheme ConstantIvFlag.kDontUseConstantIv

/-- XOR of two byte lists (used by CBC chaining). -/
def xorBlock (a b : List Nat) : List Nat :=
  List.zipWith (fun x y => x ^^^ y) a b

/-- Split a list into `count` chunks of `size` elements (the last chunk is
shorter when the list runs out).  With `size = 16` and `count = len / 16` this
is the block sequence processed by `AES_cbc_encrypt`. -/
def chunksFuel {α : Type} (size : Nat) : Nat → List α → List (List α)
  | 0, _ => []
  | _ + 1, [] => []
  | count + 1, l => l.take size :: chunksFuel size count (l.drop size)

/-- `AES_cbc_encrypt(in, out, n, key, ivec, AES_ENCRYPT)` on a whole number of
blocks: each plaintext block is XORed with the running IV and encrypted; the
returned second component is the updated `ivec` (the last ciphertext block),
which OpenSSL writes back for chaining. -/
def cbcEncryptBlocks (aesE : List Nat → List Nat) (iv : List Nat) :
    List (List Nat) → List (List Nat) × List Nat
  | [] => ([], iv)
  | b :: rest =>
    let c := aesE (xorBlock iv b)
    let tail := cbcEncryptBlocks aesE c rest
    (c :: tail.1, tail.2)

/-- `AesCbcEncryptor::NumPaddingBytes`: PKCS#5 always pads with
`16 - size % 16` bytes (a full block when the size is a multiple of 16); the
other schemes add no padding. -/
def NumPaddingBytes (scheme : CbcPaddingScheme) (size : Nat) : Nat :=
  if scheme = CbcPaddingScheme.kPkcs5Padding then 16 - size % 16 else 0

/-- `AesCbcEncryptor::SetIvInternal`: the internal IV is the IV resized to 16
bytes. -/
def setIvInternalCbc (iv : List Nat) : List Nat :=
  (iv ++ List.replicate (16 - iv.length) 0).take 16

/-- `AesCbcEncryptor::CryptInternal` (aes_encryptor.cc).  The AES block
function is the parameter `aesE`; the result is `none` when the function
returns false (insufficient output capacity) and otherwise the ciphertext,
the reported ciphertext size and the updated internal IV.  The branch
structure follows the source:
* capacity check against `plaintext_size + NumPaddingBytes`;
* CBC pass over the full blocks (`cbc_size` bytes);
* with CTS and no full block, the plaintext is copied out unencrypted;
* with no residual block and a scheme other than PKCS#5, done;
* with no padding, the residual bytes are copied out unencrypted;
* with PKCS#5, the residual block is padded with the pad count and encrypted;
* with CTS, the residual block is zero-padded and encrypted, the result is
  written over the last full block, and the first `residual_block_size` bytes
  of the former last full ciphertext block become the tail. -/
def cbcCryptInternal (scheme : CbcPaddingScheme) (aesE : List Nat → List Nat)
    (internalIv : List Nat) (plaintext : List Nat) (ciphertextSize : Nat) :
    Option (List Nat × Nat × List Nat) :=
  let residualBlockSize := plaintext.length % 16
  let numPadding := NumPaddingBytes scheme plaintext.length
  let requiredCiphertextSize := plaintext.length + numPadding
  if ciphertextSize < requiredCiphertextSize then none
  else
    let cbcSize := plaintext.length - residualBlockSize
    let cbcPass :=
      cbcEncryptBlocks aesE internalIv (chunksFuel 16 (cbcSize / 16) plaintext)
    if cbcSize = 0 ∧ scheme = CbcPaddingScheme.kCtsPadding then
      some (plaintext, requiredCiphertextSize, internalIv)
    else if residualBlockSize = 0 ∧ scheme ≠ CbcPaddingScheme.kPkcs5Padding then
      some (cbcPass.1.flatten, requiredCiphertextSize, cbcPass.2)
    else if scheme = CbcPaddingScheme.kNoPadding then
      some (cbcPass.1.flatten ++ plaintext.drop cbcSize,
        requiredCiphertextSize, cbcPass.2)
    else if scheme = CbcPaddingScheme.kPkcs5Padding then
      let residualBlock :=
        plaintext.drop cbcSize ++ List.replicate numPadding numPadding
      let padPass := cbcEncryptBlocks aesE cbcPass.2 [residualBlock]
      some (cbcPass.1.flatten ++ padPass.1.flatten,
        requiredCiphertextSize, padPass.2)
    else
      let residualBlock :=
        plaintext.drop cbcSize ++ List.replicate (16 - residualBlockSize) 0
      let ctsPass := cbcEncryptBlocks aesE cbcPass.2 [residualBlock]
      let flat := cbcPass.1.flatten
      some (flat.take (cbcSize - 16) ++ ctsPass.1.flatten ++
          (flat.drop (cbcSize - 16)).take residualBlockSize,
        requiredCiphertextSize, ctsPass.2)

/-- C9: `AesEncryptor::InitializeWithIv` returns false for every key whose
size is not 16, 24 or 32 bytes (and installs nothing); for a key of one of
those sizes it installs the key and returns the result of `SetIv`. -/
theorem claim_C9_initialize_with_iv (key iv : List Nat)
    (setIv : List Nat → Bool) :
    (¬(key.length = 16 ∨ key.length = 24 ∨ key.length = 32) →
      initializeWithIv key iv setIv = (false, none)) ∧
    ((key.length = 16 ∨ key.length = 24 ∨ key.length = 32) →
      initializeWithIv key iv setIv = (setIv iv, some key)) := by
  constructor
  · intro h
    have hv : IsKeySizeValidForAes key.length = false := by
      simp only [IsKeySizeValidForAes]
      simp only [Bool.or_eq_false_iff, beq_eq_false_iff_ne, ne_eq]
      omega
    simp [initializeWithIv, hv]
  · intro h
    have hv : IsKeySizeValidForAes key.length = true := by
      simp only [IsKeySizeValidForAes]
      rcases h with h | h | h <;> simp [h]
    simp [initializeWithIv, hv]

/-- Witness for C9: a 15-byte key is rejected, a 16-byte key is accepted and
returns the `SetIv` result. -/
theorem claim_C9_witness :
    initializeWithIv (List.replicate 15 0) [1] (fun _ => true) = (false, none) ∧
    initializeWithIv (List.replicate 16 0) [1] (fun _ => true) =
      (true, some (List.replicate 16 0)) :=
  ⟨(claim_C9_initialize_with_iv (List.replicate 15 0) [1]
      (fun _ => true)).1 (by decide),
    (claim_C9_initialize_with_iv (List.replicate 16 0) [1]
      (fun _ => true)).2 (by decide)⟩

/-- C10: the `AesCbcEncryptor` constructor CHECK-fails (modelled as `none`)
exactly when the padding scheme is PKCS#5 or CTS and the constant-IV flag is
not set; the single-argument constructor (non-constant IV) succeeds only with
`kNoPadding`; and any successfully constructed encryptor with a non-constant
IV (the mode in which the IV chains across calls) uses `kNoPadding`. -/
theorem claim_C10_cbc_constructor_check (s : CbcPaddingScheme)
    (f : ConstantIvFlag) :
    (aesCbcEncryptorNew s f = none ↔
      (s ≠ CbcPaddingScheme.kNoPadding ∧ f ≠ ConstantIvFlag.kUseConstantIv)) ∧
    (aesCbcEncryptorNewDefault s = none ↔ s ≠ CbcPaddingScheme.kNoPadding) ∧
    (∀ e, aesCbcEncryptorNew s f = some e →
      e.constant_iv_flag = ConstantIvFlag.kDontUseConstantIv →
      e.padding_scheme = CbcPaddingScheme.kNoPadding) := by
  refine ⟨?_, ?_, ?_⟩
  · cases s <;> cases f <;> simp [aesCbcEncryptorNew]
  · cases s <;> simp [aesCbcEncryptorNewDefault, aesCbcEncryptorNew]
  · intro e he hflag
    cases s <;> cases f <;>
      simp only [aesCbcEncryptorNew, reduceCtorEq, ne_eq, if_true, if_false,
        not_true, not_false_iff, and_true, and_false, if_neg, if_pos,
        Option.some.injEq] at he <;>
      first
        | (subst he; rfl)
        | (subst he; simp at hflag)

/-- Witness for C10: PKCS#5 with a non-constant IV aborts. -/
theorem claim_C10_witness :
    aesCbcEncryptorNew CbcPaddingScheme.kPkcs5Padding
      ConstantIvFlag.kDontUseConstantIv = none :=
  (claim_C10_cbc_constructor_check CbcPaddingScheme.kPkcs5Padding
    ConstantIvFlag.kDontUseConstantIv).1.mpr (by decide)

/-- C4: with PKCS#5 padding and sufficient output capacity, every plaintext of
length `L` yields a reported ciphertext size of `L + (16 - L % 16)`; the empty
plaintext in particular yields exactly one 16-byte block, the CBC encryption
of the byte 0x10 repeated 16 times under the internal IV. -/
theorem claim_C4_cbc_pkcs5_length (aesE : List Nat → List Nat)
    (iv p : List Nat) (cap : Nat)
    (haesE : ∀ b, (aesE b).length = 16)
    (hcap : p.length + (16 - p.length % 16) ≤ cap) :
    (∃ out ivF,
      cbcCryptInternal CbcPaddingScheme.kPkcs5Padding aesE iv p cap =
        some (out, p.length + (16 - p.length % 16), ivF)) ∧
    (∀ cap2, 16 ≤ cap2 →
      cbcCryptInternal CbcPaddingScheme.kPkcs5Padding aesE iv [] cap2 =
        some (aesE (xorBlock iv (List.replicate 16 16)), 16,
          aesE (xorBlock iv (List.replicate 16 16))) ∧
      (aesE (xorBlock iv (List.replicate 16 16))).length = 16) := by
  have hnp : ∀ n, NumPaddingBytes CbcPaddingScheme.kPkcs5Padding n =
      16 - n % 16 := by
    intro n; simp [NumPaddingBytes]
  constructor
  · simp only [cbcCryptInternal, hnp]
    rw [if_neg (by omega), if_neg (by simp), if_neg (by simp),
      if_neg (by simp), if_pos trivial]
    exact ⟨_, _, rfl⟩
  · intro cap2 hcap2
    refine ⟨?_, haesE _⟩
    simp only [cbcCryptInternal, hnp]
    rw [if_neg (by simp; omega)]
    simp [cbcEncryptBlocks, chunksFuel]

/-- Witness for C4: a 3-byte plaintext reports 16 ciphertext bytes, and the
empty plaintext yields the one encrypted padding block. -/
theorem claim_C4_witness :
    (∃ out ivF,
      cbcCryptInternal CbcPaddingScheme.kPkcs5Padding
          (fun _ => List.replicate 16 0) (List.replicate 16 0) [1, 2, 3] 16 =
        some (out, 16, ivF)) ∧
    (∀ cap2, 16 ≤ cap2 →
      cbcCryptInternal CbcPaddingScheme.kPkcs5Padding
          (fun _ => List.replicate 16 0) (List.replicate 16 0) [] cap2 =
        some (List.replicate 16 0, 16, List.replicate 16 0) ∧
      (List.replicate (16 : Nat) (0 : Nat)).length = 16) :=
  claim_C4_cbc_pkcs5_length (fun _ => List.replicate 16 0)
    (List.replicate 16 0) [1, 2, 3] 16 (fun _ => rfl) (by decide)

lemma cbcEncryptBlocks_length (aesE : List Nat → List Nat) :
    ∀ (bs : List (List Nat)) (iv : List Nat),
    (cbcEncryptBlocks aesE iv bs).1.length = bs.length := by
  intro bs
  induction bs with
  | nil => intro iv; rfl
  | cons b rest ih => intro iv; simp [cbcEncryptBlocks, ih]

lemma cbcEncryptBlocks_blocks_len {aesE : List Nat → List Nat}
    (haesE : ∀ b, (aesE b).length = 16) :
    ∀ (bs : List (List Nat)) (iv : List Nat),
    ∀ c ∈ (cbcEncryptBlocks aesE iv bs).1, c.length = 16 := by
  intro bs
  induction bs with
  | nil => intro iv c hc; simp [cbcEncryptBlocks] at hc
  | cons b rest ih =>
    intro iv c hc
    simp only [cbcEncryptBlocks, List.mem_cons] at hc
    rcases hc with hc | hc
    · subst hc; exact haesE _
    · exact ih _ c hc

lemma cbcEncryptBlocks_snd (aesE : List Nat → List Nat) :
    ∀ (bs : List (List Nat)) (iv : List Nat),
    (cbcEncryptBlocks aesE iv bs).2 = (cbcEncryptBlocks aesE iv bs).1.getLastD iv := by
  intro bs
  induction bs with
  | nil => intro iv; rfl
  | cons b rest ih =>
    intro iv
    simp only [cbcEncryptBlocks, List.getLastD_cons]
    exact ih _

lemma chunksFuel_length {α : Type} :
    ∀ (count : Nat) (l : List α), 16 * count ≤ l.length →
    (chunksFuel 16 count l).length = count := by
  intro count
  induction count with
  | zero => intro l _; rfl
  | succ count ih =>
    intro l hl
    cases l with
    | nil => simp at hl
    | cons x xs =>
      simp only [List.length_cons] at hl
      simp only [chunksFuel, List.length_cons]
      rw [ih]
      simp only [List.length_drop, List.length_cons]
      omega

lemma chunksFuel_blocks_len {α : Type} :
    ∀ (count : Nat) (l : List α), 16 * count ≤ l.length →
    ∀ b ∈ chunksFuel 16 count l, b.length = 16 := by
  intro count
  induction count with
  | zero => intro l _ b hb; simp [chunksFuel] at hb
  | succ count ih =>
    intro l hl b hb
    cases l with
    | nil => simp at hl
    | cons x xs =>
      simp only [List.length_cons] at hl
      simp only [chunksFuel, List.mem_cons] at hb
      rcases hb with hb | hb
      · subst hb
        simp only [List.length_take, List.length_cons]
        omega
      · refine ih _ ?_ b hb
        simp only [List.length_drop, List.length_cons]
        omega

lemma flatten_length_blocks :
    ∀ (bs : List (List Nat)), (∀ b ∈ bs, b.length = 16) →
    bs.flatten.length = 16 * bs.length := by
  intro bs
  induction bs with
  | nil => intro _; rfl
  | cons b rest ih =>
    intro h
    simp only [List.flatten_cons, List.length_append, List.length_cons,
      h b (by simp), ih (fun x hx => h x (by simp [hx]))]
    ring

lemma flatten_take_blocks :
    ∀ (bs : List (List Nat)) (k : Nat), (∀ b ∈ bs, b.length = 16) →
    bs.flatten.take (16 * k) = (bs.take k).flatten := by
  intro bs
  induction bs with
  | nil => intro k _; simp
  | cons b rest ih =>
    intro k h
    cases k with
    | zero => simp
    | succ k =>
      have hb : b.length = 16 := h b (by simp)
      simp only [List.flatten_cons, List.take_succ_cons]
      rw [show 16 * (k + 1) = b.length + 16 * k by omega, List.take_append,
        ih k (fun x hx => h x (by simp [hx]))]

lemma flatten_drop_blocks :
    ∀ (bs : List (List Nat)) (k : Nat), (∀ b ∈ bs, b.length = 16) →
    bs.flatten.drop (16 * k) = (bs.drop k).flatten := by
  intro bs
  induction bs with
  | nil => intro k _; simp
  | cons b rest ih =>
    intro k h
    cases k with
    | zero => simp
    | succ k =>
      have hb : b.length = 16 := h b (by simp)
      simp only [List.flatten_cons, List.drop_succ_cons]
      rw [show 16 * (k + 1) = b.length + 16 * k by omega, List.drop_append,
        ih k (fun x hx => h x (by simp [hx]))]

lemma drop_length_sub_one {α : Type} (d : α) :
    ∀ (l : List α), l ≠ [] → l.drop (l.length - 1) = [l.getLastD d] := by
  intro l
  induction l with
  | nil => intro h; exact absurd rfl h
  | cons x xs ih =>
    intro _
    cases xs with
    | nil => rfl
    | cons y ys =>
      have h2 := ih (List.cons_ne_nil y ys)
      simp only [List.length_cons, Nat.add_sub_cancel,
        List.drop_succ_cons] at h2 ⊢
      rw [h2]
      simp [List.getLastD_cons]

/-- Ciphertext-stealing output, written after the words of the spec: encrypt
the full blocks with plain CBC; when the plaintext is shorter than one block
it passes through unchanged; when the length is a multiple of the block size
the CBC output is final; otherwise the zero-padded residual is encrypted
chained after the last full block, the result replaces the last full
ciphertext block, and the short tail is taken from the penultimate (former
last full) block's ciphertext. -/
def cbcCtsSpec (aesE : List Nat → List Nat) (iv p : List Nat) : List Nat :=
  if p.length < 16 then p
  else
    let kk := p.length / 16
    let r := p.length % 16
    let cs := (cbcEncryptBlocks aesE iv (chunksFuel 16 kk p)).1
    if r = 0 then cs.flatten
    else
      let lastC := cs.getLastD iv
      let stolen := aesE (xorBlock lastC
        (p.drop (16 * kk) ++ List.replicate (16 - r) 0))
      (cs.take (kk - 1)).flatten ++ stolen ++ lastC.take r

/-- C5: with CTS padding and sufficient capacity, a plaintext strictly shorter
than 16 bytes is copied to the output unchanged and the call succeeds; any
plaintext of at least 16 bytes reports a ciphertext length equal to the
plaintext length, the output being `cbcCtsSpec`: the CBC pass over the full
blocks with, when the length is not a multiple of 16, the last two blocks
swapped and the short tail taken from the former last full block's
ciphertext. -/
theorem claim_C5_cbc_cts (aesE : List Nat → List Nat) (iv p : List Nat)
    (cap : Nat) (haesE : ∀ b, (aesE b).length = 16) (hcap : p.length ≤ cap) :
    ∃ ivF,
      cbcCryptInternal CbcPaddingScheme.kCtsPadding aesE iv p cap =
        some (cbcCtsSpec aesE iv p, p.length, ivF) ∧
      (cbcCtsSpec aesE iv p).length = p.length ∧
      (p.length < 16 → cbcCtsSpec aesE iv p = p) := by
  have hnp : ∀ n, NumPaddingBytes CbcPaddingScheme.kCtsPadding n = 0 := by
    intro n; simp [NumPaddingBytes]
  by_cases hlt : p.length < 16
  · have hr : p.length % 16 = p.length := Nat.mod_eq_of_lt hlt
    have hspec : cbcCtsSpec aesE iv p = p := by
      simp only [cbcCtsSpec]; rw [if_pos hlt]
    refine ⟨iv, ?_, by rw [hspec], fun _ => hspec⟩
    simp only [cbcCryptInternal, hnp]
    rw [if_neg (by omega), if_pos ⟨by omega, trivial⟩, hspec]
    norm_num
  · push_neg at hlt
    have hcbc : p.length - p.length % 16 = 16 * (p.length / 16) := by omega
    have hch : 16 * (p.length / 16) ≤ p.length := by omega
    have hblocks : ∀ b ∈ chunksFuel 16 (p.length / 16) p, b.length = 16 :=
      chunksFuel_blocks_len _ _ hch
    have hchlen : (chunksFuel 16 (p.length / 16) p).length = p.length / 16 :=
      chunksFuel_length _ _ hch
    have hcsblocks : ∀ c ∈
        (cbcEncryptBlocks aesE iv (chunksFuel 16 (p.length / 16) p)).1,
        c.length = 16 := cbcEncryptBlocks_blocks_len haesE _ _
    have hcslen :
        (cbcEncryptBlocks aesE iv (chunksFuel 16 (p.length / 16) p)).1.length =
          p.length / 16 := by
      rw [cbcEncryptBlocks_length]; exact hchlen
    have hflatlen :
        (cbcEncryptBlocks aesE iv
            (chunksFuel 16 (p.length / 16) p)).1.flatten.length =
          16 * (p.length / 16) := by
      rw [flatten_length_blocks _ hcsblocks, hcslen]
    by_cases hr0 : p.length % 16 = 0
    · have hspec : cbcCtsSpec aesE iv p =
          (cbcEncryptBlocks aesE iv
            (chunksFuel 16 (p.length / 16) p)).1.flatten := by
        simp only [cbcCtsSpec]
        rw [if_neg (by omega), if_pos hr0]
      refine ⟨(cbcEncryptBlocks aesE iv (chunksFuel 16 (p.length / 16) p)).2,
        ?_, ?_, fun h => absurd h (by omega)⟩
      · simp only [cbcCryptInternal, hnp]
        rw [if_neg (by omega), if_neg (by rintro ⟨h1, -⟩; omega),
          if_pos ⟨hr0, by simp⟩]
        have e0 : (p.length - p.length % 16) / 16 = p.length / 16 := by omega
        rw [e0, hspec]
        norm_num
      · rw [hspec, hflatlen]; omega
    · have hne :
          (cbcEncryptBlocks aesE iv (chunksFuel 16 (p.length / 16) p)).1 ≠
            [] := by
        intro h
        rw [h] at hcslen
        simp at hcslen
        omega
      have hlast :
          (cbcEncryptBlocks aesE iv (chunksFuel 16 (p.length / 16) p)).1.drop
              (p.length / 16 - 1) =
            [(cbcEncryptBlocks aesE iv
                (chunksFuel 16 (p.length / 16) p)).1.getLastD iv] := by
        have h2 := drop_length_sub_one iv _ hne
        rw [hcslen] at h2
        exact h2
      have hmem :
          (cbcEncryptBlocks aesE iv
              (chunksFuel 16 (p.length / 16) p)).1.getLastD iv ∈
            (cbcEncryptBlocks aesE iv (chunksFuel 16 (p.length / 16) p)).1 := by
        refine List.drop_subset (p.length / 16 - 1) _ ?_
        rw [hlast]
        simp
      have hlastlen :
          ((cbcEncryptBlocks aesE iv
              (chunksFuel 16 (p.length / 16) p)).1.getLastD iv).length = 16 :=
        hcsblocks _ hmem
      have hspec2 : cbcCtsSpec aesE iv p =
          ((cbcEncryptBlocks aesE iv
              (chunksFuel 16 (p.length / 16) p)).1.take
            (p.length / 16 - 1)).flatten ++
          aesE (xorBlock
            ((cbcEncryptBlocks aesE iv
                (chunksFuel 16 (p.length / 16) p)).1.getLastD iv)
            (p.drop (16 * (p.length / 16)) ++
              List.replicate (16 - p.length % 16) 0)) ++
          ((cbcEncryptBlocks aesE iv
              (chunksFuel 16 (p.length / 16) p)).1.getLastD iv).take
            (p.length % 16) := by
        simp only [cbcCtsSpec]
        rw [if_neg (by omega), if_neg hr0]
      refine ⟨aesE (xorBlock
          ((cbcEncryptBlocks aesE iv
              (chunksFuel 16 (p.length / 16) p)).1.getLastD iv)
          (p.drop (16 * (p.length / 16)) ++
            List.replicate (16 - p.length % 16) 0)),
        ?_, ?_, fun h => absurd h (by omega)⟩
      · simp only [cbcCryptInternal, hnp]
        rw [if_neg (by omega), if_neg (by rintro ⟨h1, -⟩; omega),
          if_neg (by rintro ⟨h1, -⟩; exact hr0 h1),
          if_neg (by simp), if_neg (by simp)]
        have e0 : (p.length - p.length % 16) / 16 = p.length / 16 := by omega
        have e1 : 16 * (p.length / 16) - 16 = 16 * (p.length / 16 - 1) := by
          omega
        rw [e0, hspec2, hcbc, e1]
        simp only [cbcEncryptBlocks, List.flatten_cons, List.flatten_nil,
          List.append_nil]
        rw [flatten_take_blocks _ _ hcsblocks,
          flatten_drop_blocks _ _ hcsblocks, hlast, cbcEncryptBlocks_snd]
        simp only [List.flatten_cons, List.flatten_nil, List.append_nil]
        norm_num
      · rw [hspec2]
        have htklen :
            (((cbcEncryptBlocks aesE iv
                (chunksFuel 16 (p.length / 16) p)).1.take
              (p.length / 16 - 1)).flatten).length =
              16 * (p.length / 16 - 1) := by
          rw [flatten_length_blocks _
            (fun b hb => hcsblocks b (List.take_subset _ _ hb)),
            List.length_take, hcslen]
          omega
        simp only [List.length_append, htklen, haesE, List.length_take,
          hlastlen]
        omega

/-- Witness for C5 at the 2-byte plaintext "hi" (0x68 0x69): the output passes
through unchanged. -/
theorem claim_C5_witness :
    ∃ ivF,
      cbcCryptInternal CbcPaddingScheme.kCtsPadding
          (fun _ => List.replicate 16 0) (List.replicate 16 0) [104, 105] 2 =
        some (cbcCtsSpec (fun _ => List.replicate 16 0)
          (List.replicate 16 0) [104, 105], 2, ivF) ∧
      (cbcCtsSpec (fun _ => List.replicate 16 0)
        (List.replicate 16 0) [104, 105]).length = 2 ∧
      (([104, 105] : List Nat).length < 16 →
        cbcCtsSpec (fun _ => List.replicate 16 0)
          (List.replicate 16 0) [104, 105] = [104, 105]) :=
  claim_C5_cbc_cts (fun _ => List.replicate 16 0) (List.replicate 16 0)
    [104, 105] 2 (fun _ => rfl) (by decide)

/-! ## The multi-segment segmenter (multi_segment_segmenter.cc) -/

/-- `SegmentReference::TypeUnknown` (SAP type 0). -/
def TypeUnknown : Nat := 0

/-- The fields of `SegmentReference` (box_definitions.h) read and written by
`MultiSegmentSegmenter::DoFinalizeSegment` and `WriteSegment`. -/
structure SegmentReference where
  referenced_size : Nat
  subsegment_duration : Nat
  earliest_presentation_time : Nat
  sap_type : Nat
  sap_delta_time : Nat
  deriving DecidableEq, Inhabited

/-- Absolute time of a reference's first SAP:
`sap_delta_time + earliest_presentation_time`, as computed for
`first_sap_time` in DoFinalizeSegment. -/
def sapStartTime (r : SegmentReference) : Nat :=
  r.sap_delta_time + r.earliest_presentation_time

/-- The three unconditional accumulation statements of the coalescing loop:
sum `referenced_size` and `subsegment_duration`, take the minimum
`earliest_presentation_time`. -/
def accumulateRef (acc r : SegmentReference) : SegmentReference :=
  { acc with
    referenced_size := acc.referenced_size + r.referenced_size
    subsegment_duration := acc.subsegment_duration + r.subsegment_duration
    earliest_presentation_time :=
      min acc.earliest_presentation_time r.earliest_presentation_time }

/-- One full accumulation step of the coalescing loop body: accumulate
`refs[i]` into `refs[subseg_index]` and, when the accumulator's SAP type is
still unknown and `refs[i]` has a known one, adopt it and reset
`first_sap_time`.  Returns the updated accumulator and `first_sap_time`. -/
def loopAccStep (acc r : SegmentReference) (firstSapTime : Nat) :
    SegmentReference × Nat :=
  let acc1 := accumulateRef acc r
  if acc1.sap_type = TypeUnknown ∧ r.sap_type ≠ TypeUnknown then
    ({ acc1 with sap_type := r.sap_type }, sapStartTime r)
  else (acc1, firstSapTime)

/-- The finalization of a subsegment reference when `frag_index` reaches
`num_fragments_per_subsegment`: recompute `sap_delta_time` relative to the
subsegment's earliest presentation time, but only when the SAP type is known.
The subtraction cannot underflow in reachable states because
`first_sap_time` is `sap_delta_time + earliest_presentation_time` of a
reference of the group, which is at least the group's minimum
`earliest_presentation_time`. -/
def finalizeRef (acc : SegmentReference) (firstSapTime : Nat) :
    SegmentReference :=
  if acc.sap_type ≠ TypeUnknown then
    { acc with
      sap_delta_time := firstSapTime - acc.earliest_presentation_time }
  else acc

/-- The `for (uint32_t i = 1; i < num_fragments; ++i)` loop of
`DoFinalizeSegment`, written with a fuel argument (the loop performs fewer
than `refs.size` iterations, so fuel `refs.size` is enough).  Writing the
finalized accumulator unconditionally is identical to the source's guarded
write because `finalizeRef` returns the accumulator unchanged when the SAP
type is unknown. -/
def coalesceLoop (P : Nat) (refs : Array SegmentReference)
    (i fragIndex subsegIndex firstSapTime : Nat) :
    Nat → Array SegmentReference
  | 0 => refs
  | fuel + 1 =>
    if i < refs.size then
      let acc0 := refs.getD subsegIndex default
      let ri := refs.getD i default
      let step := loopAccStep acc0 ri firstSapTime
      let refs1 := refs.setD subsegIndex step.1
      if fragIndex + 1 ≥ P then
        let refs2 := refs1.setD subsegIndex (finalizeRef step.1 step.2)
        if i + 1 ≥ refs.size then refs2
        else
          let rn := refs2.getD (i + 1) default
          let refs3 := refs2.setD (subsegIndex + 1) rn
          coalesceLoop P refs3 (i + 2) 1 (subsegIndex + 1) (sapStartTime rn)
            fuel
      else coalesceLoop P refs1 (i + 1) (fragIndex + 1) subsegIndex step.2 fuel
    else refs

/-- `std::vector::resize(n)`: truncate to `n` elements, or pad with
default-constructed elements. -/
def vectorResize (refs : Array SegmentReference) (n : Nat) :
    Array SegmentReference :=
  (refs.toList.take n ++
    List.replicate (n - refs.toList.length) default).toArray

/-- The `sidx` state touched by `DoFinalizeSegment`: its
`earliest_presentation_time` and reference vector. -/
structure SidxBoxModel where
  earliest_presentation_time : Nat
  references : Array SegmentReference
  deriving DecidableEq, Inhabited

/-- `MultiSegmentSegmenter::DoFinalizeSegment` up to the `WriteSegment` call:
set the sidx earliest presentation time from the first pre-generated
reference; when `num_subsegments_per_sidx <= 0` or
`num_fragments_per_subsegment <= 1` leave the references untouched; otherwise
run the coalescing loop, resize the reference vector to
`num_subsegments_per_sidx`, and refresh the earliest presentation time. -/
def doFinalizeSegmentSidx (numSubsegmentsPerSidx : Int)
    (sidx : SidxBoxModel) : SidxBoxModel :=
  let refs := sidx.references
  let sidx1 := { sidx with
    earliest_presentation_time :=
      (refs.getD 0 default).earliest_presentation_time }
  if numSubsegmentsPerSidx ≤ 0 then sidx1
  else
    let numFragments := refs.size
    let numFragmentsPerSubsegment :=
      (numFragments - 1) / numSubsegmentsPerSidx.toNat + 1
    if numFragmentsPerSubsegment ≤ 1 then sidx1
    else
      let firstSapTime := sapStartTime (refs.getD 0 default)
      let refs2 := coalesceLoop numFragmentsPerSubsegment refs 1 0 0
        firstSapTime numFragments
      let refs3 := vectorResize refs2 numSubsegmentsPerSidx.toNat
      { earliest_presentation_time :=
          (refs3.getD 0 default).earliest_presentation_time
        references := refs3 }

/-- Ten pre-generated references, one per fragment, with distinct
power-of-two sizes so that each group of fragments has a unique size sum;
fragment `i` has `referenced_size = 2 ^ i`, duration 1, presentation time
`100 * i` and a known SAP (type 1, delta 0). -/
def c1TestRefs : Array SegmentReference :=
  #[⟨1, 1, 0, 1, 0⟩, ⟨2, 1, 100, 1, 0⟩, ⟨4, 1, 200, 1, 0⟩,
    ⟨8, 1, 300, 1, 0⟩, ⟨16, 1, 400, 1, 0⟩, ⟨32, 1, 500, 1, 0⟩,
    ⟨64, 1, 600, 1, 0⟩, ⟨128, 1, 700, 1, 0⟩, ⟨256, 1, 800, 1, 0⟩,
    ⟨512, 1, 900, 1, 0⟩]

/-- C1 (code bug): finalizing a segment with 10 fragments and
`num_subsegments_per_sidx = 3` (so `P = ceil(10/3) = 4`) coalesces the
references into groups of 5, 4 and 1 fragments — sums 31, 480 and 512 of the
power-of-two sizes — not the groups of 4, 4 and 2 (sums 15, 240 and 768) that
the claim derives from `P`; the reference vector is resized to exactly 3.
The first subsegment absorbs `P + 1` fragments because `frag_index` starts at
0 while every later group restarts it at 1 with the group's leading fragment
already counted. -/
theorem claim_C1_coalescing_groups_eval :
    ((doFinalizeSegmentSidx 3
      { earliest_presentation_time := 0, references := c1TestRefs
      }).references.map (fun r => r.referenced_size)).toList =
        [31, 480, 512] ∧
    ((doFinalizeSegmentSidx 3
      { earliest_presentation_time := 0, references := c1TestRefs
      }).references.map (fun r => r.referenced_size)).toList ≠
        [15, 240, 768] ∧
    (doFinalizeSegmentSidx 3
      { earliest_presentation_time := 0, references := c1TestRefs
      }).references.size = 3 := by
  refine ⟨rfl, ?_, rfl⟩
  decide

/-- Seven pre-generated references for `num_subsegments_per_sidx = 2`
(`P = 4`): the loop forms the groups {0..4} and {5, 6}; the final group is
incomplete, its leading reference 5 has a known SAP (type 1, delta 10,
presentation time 100) and reference 6 has an unknown SAP and the smaller
presentation time 50. -/
def c6TestRefs : Array SegmentReference :=
  #[⟨1, 1, 200, 1, 0⟩, ⟨1, 1, 210, 1, 0⟩, ⟨1, 1, 220, 1, 0⟩,
    ⟨1, 1, 230, 1, 0⟩, ⟨1, 1, 240, 1, 0⟩, ⟨1, 1, 100, 1, 10⟩,
    ⟨1, 1, 50, 0, 0⟩]

/-- Counterexample to C6 as stated: in the coalesced second reference (the
group {5, 6}), the first known SAP belongs to reference 5, whose absolute SAP
time is `10 + 100 = 110`, and the group's earliest presentation time is 50,
so the claim requires `sap_delta_time = 110 - 50 = 60`; the code leaves the
leading reference's original `sap_delta_time = 10`, because the recomputation
only happens for groups that complete `num_fragments_per_subsegment`
fragments inside the loop. -/
theorem claim_C6_counterexample :
    ((doFinalizeSegmentSidx 2
        { earliest_presentation_time := 0, references := c6TestRefs
        }).references.getD 1 default).sap_delta_time ≠
      sapStartTime (c6TestRefs.getD 5 default) -
        ((doFinalizeSegmentSidx 2
          { earliest_presentation_time := 0, references := c6TestRefs
          }).references.getD 1 default).earliest_presentation_time := by
  decide

/-! ### Bridging the array loop to a list-level description -/

lemma arrayGetD_eq_toList (a : Array SegmentReference) (i : Nat)
    (d : SegmentReference) : a.getD i d = a.toList.getD i d := by
  unfold Array.getD
  split
  case isTrue h =>
    rw [List.getD_eq_getElem _ _ (by simpa using h)]
    rfl
  case isFalse h =>
    rw [List.getD_eq_default _ _ (by simpa using h)]

lemma arraySetD_toList (a : Array SegmentReference) (i : Nat)
    (v : SegmentReference) : (a.setD i v).toList = a.toList.set i v := by
  unfold Array.setD
  split
  · simp [Array.toList_set]
  · rw [List.set_eq_of_length_le]
    simp at *
    omega

lemma getD_set_model (l : List SegmentReference) (n m : Nat)
    (v d : SegmentReference) :
    (l.set n v).getD m d = if n = m ∧ n < l.length then v else l.getD m d := by
  by_cases hm : m < l.length
  · rw [List.getD_eq_getElem _ _ (by simpa using hm),
      List.getD_eq_getElem _ _ hm, List.getElem_set]
    by_cases hnm : n = m
    · subst hnm
      rw [if_pos rfl, if_pos ⟨rfl, by omega⟩]
    · rw [if_neg hnm, if_neg (by rintro ⟨rfl, -⟩; exact hnm rfl)]
  · rw [List.getD_eq_default _ _ (by simp; omega),
      List.getD_eq_default _ _ (by omega), if_neg]
    rintro ⟨rfl, hn⟩
    omega

lemma take_set_ge (l : List SegmentReference) (n s : Nat)
    (v : SegmentReference) (h : s ≤ n) : (l.set n v).take s = l.take s := by
  apply List.ext_getElem
  · simp
  · intro i h1 h2
    simp only [List.length_take, List.length_set] at h1
    simp only [List.getElem_take, List.getElem_set]
    rw [if_neg (by omega)]

lemma take_succ_set (l : List SegmentReference) (s : Nat)
    (v : SegmentReference) (h : s < l.length) :
    (l.set s v).take (s + 1) = l.take s ++ [v] := by
  rw [List.set_eq_take_cons_drop v h]
  have hlen : (l.take s).length = s := by
    rw [List.length_take]; omega
  rw [show s + 1 = (l.take s).length + 1 by omega, List.take_append]
  simp

lemma drop_eq_of_getD_eq (d : SegmentReference)
    (l1 l2 : List SegmentReference) (k : Nat) (hlen : l1.length = l2.length)
    (h : ∀ j, k ≤ j → l1.getD j d = l2.getD j d) :
    l1.drop k = l2.drop k := by
  apply List.ext_getElem
  · simp [hlen]
  · intro i h1 h2
    rw [List.getElem_drop, List.getElem_drop]
    have h3 : k + i < l1.length := by
      simp only [List.length_drop] at h1
      omega
    have := h (k + i) (by omega)
    rw [List.getD_eq_getElem _ _ h3,
      List.getD_eq_getElem _ _ (by omega)] at this
    exact this

lemma eq_take_getD_drop (d : SegmentReference) (l : List SegmentReference)
    (s : Nat) (h : s < l.length) :
    l = l.take s ++ l.getD s d :: l.drop (s + 1) := by
  conv_lhs => rw [← List.take_append_drop s l]
  rw [List.drop_eq_getElem_cons h, List.getD_eq_getElem _ _ h]

/-- List-level reading of the coalescing loop: the final contents of the
array from the current subsegment position on, given the current accumulator,
`frag_index` `f`, `first_sap_time` and the original references still to be
read.  When the items run out the current accumulator is left as written
(without the finalization step); when `frag_index` reaches `P` the
accumulator is finalized and the next item (if any) starts the next group
with `frag_index = 1`. -/
def loopSummaries (P : Nat) :
    Nat → SegmentReference → Nat → List SegmentReference →
    List SegmentReference
  | _, acc, _, [] => [acc]
  | f, acc, fst, r :: rest =>
    let step := loopAccStep acc r fst
    if f + 1 ≥ P then
      let accF := finalizeRef step.1 step.2
      match rest with
      | [] => [accF]
      | rn :: rest2 => accF :: loopSummaries P 1 rn (sapStartTime rn) rest2
    else loopSummaries P (f + 1) step.1 step.2 rest

lemma arraySize_eq_toList (a : Array SegmentReference) :
    a.size = a.toList.length := rfl

lemma stale_tail_eq (l : List SegmentReference) (A : Array SegmentReference)
    (s : Nat) (hlen : A.toList.length = l.length) (hs : s < l.length)
    (hinv : ∀ j, s < j → A.getD j default = l.getD j default) :
    A.toList = A.toList.take s ++ [A.getD s default] ++ l.drop (s + 1) := by
  have hdrop : A.toList.drop (s + 1) = l.drop (s + 1) :=
    drop_eq_of_getD_eq default _ _ _ hlen
      (fun j hj => by rw [← arrayGetD_eq_toList]; exact hinv j (by omega))
  rw [← hdrop, arrayGetD_eq_toList]
  conv_lhs => rw [eq_take_getD_drop default A.toList s (by omega)]
  simp

lemma coalesceLoop_toList (P : Nat) :
    ∀ (fuel : Nat) (l : List SegmentReference) (A : Array SegmentReference)
      (i s f fst : Nat),
    A.toList.length = l.length → s < i → i ≤ l.length →
    (∀ j, s < j → A.getD j default = l.getD j default) →
    l.length - i ≤ fuel →
    (coalesceLoop P A i f s fst fuel).toList =
      A.toList.take s ++
        loopSummaries P f (A.getD s default) fst (l.drop i) ++
        l.drop (s +
          (loopSummaries P f (A.getD s default) fst (l.drop i)).length) := by
  intro fuel
  induction fuel with
  | zero =>
    intro l A i s f fst hlen hsi hil hinv hfuel
    have hi : i = l.length := by omega
    subst hi
    simp only [coalesceLoop, List.drop_length, loopSummaries,
      List.length_cons, List.length_nil]
    exact stale_tail_eq l A s hlen (by omega) hinv
  | succ fuel ih =>
    intro l A i s f fst hlen hsi hil hinv hfuel
    by_cases hend : i = l.length
    · subst hend
      simp only [coalesceLoop, List.drop_length, loopSummaries,
        List.length_cons, List.length_nil]
      rw [if_neg (by rw [arraySize_eq_toList]; omega)]
      exact stale_tail_eq l A s hlen (by omega) hinv
    · have hil2 : i < l.length := by omega
      have hsA : A.size = l.length := by rw [arraySize_eq_toList]; omega
      have hslen : s < l.length := by omega
      have hsAlen : s < A.toList.length := by omega
      have hri : A.getD i default = l.getD i default := hinv i hsi
      have hdropi : l.drop i = l.getD i default :: l.drop (i + 1) := by
        rw [List.getD_eq_getElem _ _ hil2]
        exact List.drop_eq_getElem_cons hil2
      have hdrops : A.toList.drop (s + 1) = l.drop (s + 1) :=
        drop_eq_of_getD_eq default _ _ _ hlen
          (fun j hj => by rw [← arrayGetD_eq_toList]; exact hinv j (by omega))
      simp only [coalesceLoop]
      rw [if_pos (by rw [hsA]; exact hil2), hri]
      by_cases hfin : f + 1 ≥ P
      · rw [if_pos hfin]
        by_cases hlast2 : i + 1 ≥ A.size
        · rw [if_pos hlast2]
          have hdropnil : l.drop (i + 1) = [] :=
            List.drop_eq_nil_of_le (by omega)
          rw [hdropi, hdropnil]
          simp only [loopSummaries]
          rw [if_pos hfin]
          rw [arraySetD_toList, arraySetD_toList, List.set_set,
            List.set_eq_take_cons_drop _ hsAlen, hdrops]
          simp
        · rw [if_neg hlast2]
          have hi1 : i + 1 < l.length := by
            rw [hsA] at hlast2; omega
          have hrn :
              ((A.setD s (loopAccStep (A.getD s default) (l.getD i default)
                  fst).1).setD s
                (finalizeRef
                  (loopAccStep (A.getD s default) (l.getD i default) fst).1
                  (loopAccStep (A.getD s default) (l.getD i default)
                    fst).2)).getD (i + 1) default =
              l.getD (i + 1) default := by
            rw [arrayGetD_eq_toList, arraySetD_toList, arraySetD_toList,
              List.set_set, getD_set_model,
              if_neg (by rintro ⟨h1, -⟩; omega), ← arrayGetD_eq_toList]
            exact hinv (i + 1) (by omega)
          rw [hrn]
          rw [ih l _ (i + 2) (s + 1) 1
            (sapStartTime (l.getD (i + 1) default))
            (by simp [arraySetD_toList, hlen])
            (by omega) (by omega)
            (by
              intro j hj
              rw [arrayGetD_eq_toList, arraySetD_toList, arraySetD_toList,
                arraySetD_toList, List.set_set, getD_set_model,
                if_neg (by rintro ⟨h1, -⟩; omega), getD_set_model,
                if_neg (by rintro ⟨h1, -⟩; omega), ← arrayGetD_eq_toList]
              exact hinv j (by omega))
            (by omega)]
          have hgets1 :
              (((A.setD s (loopAccStep (A.getD s default) (l.getD i default)
                  fst).1).setD s
                (finalizeRef
                  (loopAccStep (A.getD s default) (l.getD i default) fst).1
                  (loopAccStep (A.getD s default) (l.getD i default)
                    fst).2)).setD (s + 1) (l.getD (i + 1) default)).getD
                (s + 1) default =
              l.getD (i + 1) default := by
            rw [arrayGetD_eq_toList, arraySetD_toList, arraySetD_toList,
              arraySetD_toList, List.set_set, getD_set_model,
              if_pos ⟨rfl, by simp [List.length_set]; omega⟩]
          rw [hgets1]
          have htake :
              (((A.setD s (loopAccStep (A.getD s default) (l.getD i default)
                  fst).1).setD s
                (finalizeRef
                  (loopAccStep (A.getD s default) (l.getD i default) fst).1
                  (loopAccStep (A.getD s default) (l.getD i default)
                    fst).2)).setD (s + 1)
                (l.getD (i + 1) default)).toList.take (s + 1) =
              A.toList.take s ++
                [finalizeRef
                  (loopAccStep (A.getD s default) (l.getD i default) fst).1
                  (loopAccStep (A.getD s default) (l.getD i default)
                    fst).2] := by
            rw [arraySetD_toList, arraySetD_toList, arraySetD_toList,
              List.set_set, take_set_ge _ _ _ _ (Nat.le_refl (s + 1)),
              take_succ_set _ _ _ hsAlen]
          rw [htake]
          have hdropi1 : l.drop (i + 1) =
              l.getD (i + 1) default :: l.drop (i + 2) := by
            rw [List.getD_eq_getElem _ _ hi1]
            exact List.drop_eq_getElem_cons hi1
          rw [hdropi, hdropi1]
          simp only [loopSummaries]
          rw [if_pos hfin]
          simp only [List.length_cons, List.append_assoc,
            List.singleton_append, List.cons_append]
          rw [show s + 1 +
              (loopSummaries P 1 (l.getD (i + 1) default)
                (sapStartTime (l.getD (i + 1) default))
                (l.drop (i + 2))).length =
            s + ((loopSummaries P 1 (l.getD (i + 1) default)
                (sapStartTime (l.getD (i + 1) default))
                (l.drop (i + 2))).length + 1) by omega]
          simp
      · rw [if_neg hfin]
        rw [ih l _ (i + 1) s (f + 1)
          (loopAccStep (A.getD s default) (l.getD i default) fst).2
          (by simp [arraySetD_toList, hlen])
          (by omega) (by omega)
          (by
            intro j hj
            rw [arrayGetD_eq_toList, arraySetD_toList, getD_set_model,
              if_neg (by rintro ⟨h1, -⟩; omega), ← arrayGetD_eq_toList]
            exact hinv j (by omega))
          (by omega)]
        have hget : (A.setD s (loopAccStep (A.getD s default)
            (l.getD i default) fst).1).getD s default =
            (loopAccStep (A.getD s default) (l.getD i default) fst).1 := by
          rw [arrayGetD_eq_toList, arraySetD_toList, getD_set_model,
            if_pos ⟨rfl, by omega⟩]
        have htake : (A.setD s (loopAccStep (A.getD s default)
            (l.getD i default) fst).1).toList.take s = A.toList.take s := by
          rw [arraySetD_toList, take_set_ge _ _ _ _ (Nat.le_refl s)]
        rw [hget, htake, hdropi]
        simp only [loopSummaries]
        rw [if_neg hfin]

/-! ### Group-level description of the coalescing loop -/

/-- Accumulating one reference into a group summary: the pure part of
`loopAccStep` (sizes, durations, earliest time, first known SAP type). -/
def combineRefs (acc r : SegmentReference) : SegmentReference :=
  let acc1 := accumulateRef acc r
  if acc1.sap_type = TypeUnknown ∧ r.sap_type ≠ TypeUnknown then
    { acc1 with sap_type := r.sap_type }
  else acc1

/-- Accumulate a whole list of references, threading `first_sap_time`. -/
def absorbFold (acc : SegmentReference) (fst : Nat)
    (items : List SegmentReference) : SegmentReference × Nat :=
  items.foldl (fun p r => loopAccStep p.1 r p.2) (acc, fst)

/-- First reference of a group with a known SAP type. -/
def findFirstSap (g : List SegmentReference) : Option SegmentReference :=
  g.find? (fun r => r.sap_type != TypeUnknown)

/-- Summary of one group of pre-generated references, following the spec's
words as amended: sum sizes and durations, take the minimum earliest
presentation time and the first known SAP type; recompute `sap_delta_time`
relative to the group's earliest presentation time only when the group is
complete (it reached `num_fragments_per_subsegment` fragments inside the
loop) and some member has a known SAP type; otherwise the leading reference's
original `sap_delta_time` is kept. -/
def summarizeGroup (complete : Bool) (g : List SegmentReference) :
    SegmentReference :=
  match g with
  | [] => default
  | leader :: rest =>
    let acc := rest.foldl combineRefs leader
    if complete ∧ acc.sap_type ≠ TypeUnknown then
      { acc with
        sap_delta_time :=
          (match findFirstSap (leader :: rest) with
            | some r => sapStartTime r
            | none => 0) - acc.earliest_presentation_time }
    else acc

/-- All chunks of `P` consecutive elements (the last may be shorter). -/
def chunksOf (P : Nat) (l : List SegmentReference) :
    List (List SegmentReference) :=
  chunksFuel P l.length l

/-- The grouping the coalescing loop actually performs: the first group takes
`P + 1` references (the leading reference plus `P` accumulated ones, because
`frag_index` starts at 0), every later group takes `P`, and the last group
keeps whatever remains. -/
def sidxSubsegmentsSpec (P : Nat) (l : List SegmentReference) :
    List SegmentReference :=
  match l with
  | [] => []
  | leader :: items =>
    summarizeGroup (decide (P ≤ items.length)) (leader :: items.take P) ::
      (chunksOf P (items.drop P)).map
        (fun g => summarizeGroup (decide (g.length = P)) g)

lemma loopAccStep_fst (acc r : SegmentReference) (fst : Nat) :
    (loopAccStep acc r fst).1 = combineRefs acc r := by
  simp only [loopAccStep, combineRefs]
  split <;> rfl

lemma accumulateRef_sap (acc r : SegmentReference) :
    (accumulateRef acc r).sap_type = acc.sap_type := rfl

lemma combineRefs_sap_of_known {acc : SegmentReference}
    (r : SegmentReference) (h : acc.sap_type ≠ TypeUnknown) :
    (combineRefs acc r).sap_type = acc.sap_type := by
  simp only [combineRefs]
  rw [if_neg (by rw [accumulateRef_sap]; rintro ⟨h1, -⟩; exact h h1)]
  exact accumulateRef_sap acc r

lemma findFirstSap_cons_known {r : SegmentReference}
    (rest : List SegmentReference) (h : r.sap_type ≠ TypeUnknown) :
    findFirstSap (r :: rest) = some r := by
  simp only [findFirstSap]
  rw [List.find?_cons_of_pos _ (by simpa using h)]

lemma findFirstSap_cons_unknown {r : SegmentReference}
    (rest : List SegmentReference) (h : r.sap_type = TypeUnknown) :
    findFirstSap (r :: rest) = findFirstSap rest := by
  simp only [findFirstSap]
  rw [List.find?_cons_of_neg _ (by simpa using h)]

lemma foldl_combine_sap : ∀ (items : List SegmentReference)
    (acc : SegmentReference),
    (items.foldl combineRefs acc).sap_type =
      if acc.sap_type = TypeUnknown then
        (match findFirstSap items with
          | some r => r.sap_type
          | none => TypeUnknown)
      else acc.sap_type := by
  intro items
  induction items with
  | nil =>
    intro acc
    simp only [List.foldl_nil, findFirstSap, List.find?_nil]
    split <;> simp [*]
  | cons r rest ih =>
    intro acc
    simp only [List.foldl_cons]
    by_cases hacc : acc.sap_type = TypeUnknown
    · by_cases hr : r.sap_type = TypeUnknown
      · have hc : combineRefs acc r = accumulateRef acc r := by
          simp only [combineRefs]
          rw [if_neg (by rintro ⟨-, h2⟩; exact h2 hr)]
        rw [hc, ih, findFirstSap_cons_unknown _ hr, if_pos hacc,
          if_pos (by rw [accumulateRef_sap]; exact hacc)]
      · have hc : (combineRefs acc r).sap_type = r.sap_type := by
          simp only [combineRefs]
          rw [if_pos ⟨by rw [accumulateRef_sap]; exact hacc, hr⟩]
        rw [ih, if_neg (by rw [hc]; exact hr), hc, if_pos hacc,
          findFirstSap_cons_known _ hr]
    · have hc : (combineRefs acc r).sap_type = acc.sap_type :=
        combineRefs_sap_of_known r hacc
      rw [ih, if_neg (by rw [hc]; exact hacc), hc, if_neg hacc]

lemma absorbFold_fst : ∀ (items : List SegmentReference)
    (acc : SegmentReference) (fst : Nat),
    (absorbFold acc fst items).1 = items.foldl combineRefs acc := by
  intro items
  induction items with
  | nil => intro acc fst; rfl
  | cons r rest ih =>
    intro acc fst
    simp only [absorbFold, List.foldl_cons] at *
    rw [ih, loopAccStep_fst]

lemma absorbFold_snd : ∀ (items : List SegmentReference)
    (acc : SegmentReference) (fst : Nat),
    (absorbFold acc fst items).2 =
      if acc.sap_type = TypeUnknown then
        (match findFirstSap items with
          | some r => sapStartTime r
          | none => fst)
      else fst := by
  intro items
  induction items with
  | nil =>
    intro acc fst
    simp only [absorbFold, List.foldl_nil, findFirstSap, List.find?_nil]
    split <;> rfl
  | cons r rest ih =>
    intro acc fst
    simp only [absorbFold, List.foldl_cons] at *
    by_cases hacc : acc.sap_type = TypeUnknown
    · by_cases hr : r.sap_type = TypeUnknown
      · have hstep : loopAccStep acc r fst = (accumulateRef acc r, fst) := by
          simp only [loopAccStep]
          rw [if_neg (by rintro ⟨-, h2⟩; exact h2 hr)]
        rw [hstep, ih, findFirstSap_cons_unknown _ hr, if_pos hacc,
          if_pos (by rw [accumulateRef_sap]; exact hacc)]
      · have hstep : loopAccStep acc r fst =
            ({ accumulateRef acc r with sap_type := r.sap_type },
              sapStartTime r) := by
          simp only [loopAccStep]
          rw [if_pos ⟨by rw [accumulateRef_sap]; exact hacc, hr⟩]
        rw [hstep, ih, if_neg (by simpa using hr), if_pos hacc,
          findFirstSap_cons_known _ hr]
    · have hstep : loopAccStep acc r fst = (accumulateRef acc r, fst) := by
        simp only [loopAccStep]
        rw [if_neg (by rw [accumulateRef_sap]; rintro ⟨h1, -⟩; exact hacc h1)]
      rw [hstep, ih, if_neg (by rw [accumulateRef_sap]; exact hacc),
        if_neg hacc]

/-- The continuation of the loop after a finalized group: nothing if no
references remain, otherwise a new group led by the next reference. -/
def loopTail (P : Nat) : List SegmentReference → List SegmentReference
  | [] => []
  | rn :: rest2 => loopSummaries P 1 rn (sapStartTime rn) rest2

lemma loopSummaries_absorb (P : Nat) :
    ∀ (items : List SegmentReference) (m : Nat) (acc : SegmentReference)
      (fst : Nat), 1 ≤ m → m ≤ P →
    loopSummaries P (P - m) acc fst items =
      if items.length < m then [(absorbFold acc fst items).1]
      else
        finalizeRef (absorbFold acc fst (items.take m)).1
            (absorbFold acc fst (items.take m)).2 ::
          loopTail P (items.drop m) := by
  intro items
  induction items with
  | nil =>
    intro m acc fst hm1 hmP
    rw [if_pos (by simp only [List.length_nil]; omega)]
    rfl
  | cons r rest ih =>
    intro m acc fst hm1 hmP
    by_cases hm : m = 1
    · subst hm
      simp only [loopSummaries]
      rw [if_pos (by omega), if_neg (by simp only [List.length_cons]; omega)]
      simp only [List.take_succ_cons, List.take_zero, List.drop_succ_cons,
        List.drop_zero]
      cases rest <;> rfl
    · have hm2 : 2 ≤ m := by omega
      simp only [loopSummaries]
      rw [if_neg (by omega)]
      have e : P - m + 1 = P - (m - 1) := by omega
      rw [e, ih (m - 1) _ _ (by omega) (by omega)]
      have eAll : absorbFold acc fst (r :: rest) =
          absorbFold (loopAccStep acc r fst).1 (loopAccStep acc r fst).2
            rest := by
        simp [absorbFold]
      have eTake : absorbFold acc fst ((r :: rest).take m) =
          absorbFold (loopAccStep acc r fst).1 (loopAccStep acc r fst).2
            (rest.take (m - 1)) := by
        obtain ⟨k, rfl⟩ : ∃ k, m = k + 1 := ⟨m - 1, by omega⟩
        simp [absorbFold, List.take_succ_cons]
      have eDrop : (r :: rest).drop m = rest.drop (m - 1) := by
        obtain ⟨k, rfl⟩ : ∃ k, m = k + 1 := ⟨m - 1, by omega⟩
        simp [List.drop_succ_cons]
      by_cases hlt : rest.length < m - 1
      · rw [if_pos hlt, if_pos (by simp only [List.length_cons]; omega),
          eAll]
      · rw [if_neg hlt, if_neg (by simp only [List.length_cons]; omega),
          eTake, eDrop]

lemma summarize_incomplete (leader : SegmentReference)
    (g : List SegmentReference) :
    summarizeGroup false (leader :: g) = g.foldl combineRefs leader := by
  simp [summarizeGroup]

lemma summarize_eq_finalize (leader : SegmentReference)
    (g : List SegmentReference) :
    summarizeGroup true (leader :: g) =
      finalizeRef (absorbFold leader (sapStartTime leader) g).1
        (absorbFold leader (sapStartTime leader) g).2 := by
  simp only [summarizeGroup, finalizeRef, absorbFold_fst]
  by_cases hs : (g.foldl combineRefs leader).sap_type ≠ TypeUnknown
  · rw [if_pos ⟨by simp, hs⟩, if_pos hs]
    have hdelta :
        (match findFirstSap (leader :: g) with
          | some r => sapStartTime r
          | none => 0) =
        (absorbFold leader (sapStartTime leader) g).2 := by
      rw [absorbFold_snd]
      by_cases hl : leader.sap_type = TypeUnknown
      · rw [if_pos hl, findFirstSap_cons_unknown _ hl]
        cases hg : findFirstSap g with
        | some r => rfl
        | none =>
          exfalso
          have hfold := foldl_combine_sap g leader
          rw [if_pos hl, hg] at hfold
          exact hs hfold
      · rw [if_neg hl, findFirstSap_cons_known _ hl]
    rw [hdelta]
  · rw [if_neg (by rintro ⟨-, h2⟩; exact hs h2), if_neg hs]

lemma chunksFuel_stable {α : Type} (P : Nat) (hP : 1 ≤ P) :
    ∀ (len : Nat) (l : List α), l.length ≤ len →
    ∀ n1 n2, l.length ≤ n1 → l.length ≤ n2 →
    chunksFuel P n1 l = chunksFuel P n2 l := by
  intro len
  induction len with
  | zero =>
    intro l hl n1 n2 h1 h2
    have : l = [] := List.eq_nil_of_length_eq_zero (by omega)
    subst this
    cases n1 <;> cases n2 <;> rfl
  | succ len ih =>
    intro l hl n1 n2 h1 h2
    cases l with
    | nil => cases n1 <;> cases n2 <;> rfl
    | cons x xs =>
      simp only [List.length_cons] at hl h1 h2
      obtain ⟨k1, rfl⟩ : ∃ k, n1 = k + 1 := ⟨n1 - 1, by omega⟩
      obtain ⟨k2, rfl⟩ : ∃ k, n2 = k + 1 := ⟨n2 - 1, by omega⟩
      simp only [chunksFuel]
      congr 1
      refine ih ((x :: xs).drop P) ?_ k1 k2 ?_ ?_ <;>
        simp only [List.length_drop, List.length_cons] <;> omega

lemma chunksOf_cons (P : Nat) (x : SegmentReference)
    (l : List SegmentReference) (hP : 1 ≤ P) :
    chunksOf P (x :: l) = (x :: l).take P :: chunksOf P ((x :: l).drop P) := by
  unfold chunksOf
  simp only [List.length_cons, chunksFuel]
  congr 1
  refine chunksFuel_stable P hP ((x :: l).drop P).length _ (Nat.le_refl _)
    _ _ ?_ (Nat.le_refl _)
  simp only [List.length_drop, List.length_cons]
  omega

lemma chunksOf_short (P : Nat) (l : List SegmentReference)
    (h : l.length ≤ P) (hne : l ≠ []) : chunksOf P l = [l] := by
  cases l with
  | nil => exact absurd rfl hne
  | cons x xs =>
    rw [chunksOf_cons P x xs (by simp at h; omega)]
    rw [List.take_of_length_le h, List.drop_eq_nil_of_le h]
    rfl

lemma loopSummaries_rest_spec (P : Nat) (hP : 2 ≤ P) :
    ∀ (n : Nat) (items : List SegmentReference), items.length ≤ n →
    ∀ rn : SegmentReference,
    loopSummaries P 1 rn (sapStartTime rn) items =
      (chunksOf P (rn :: items)).map
        (fun g => summarizeGroup (decide (g.length = P)) g) := by
  intro n
  induction n with
  | zero =>
    intro items hlen rn
    have : items = [] := List.eq_nil_of_length_eq_zero (by omega)
    subst this
    rw [chunksOf_short P [rn] (by simp; omega) (by simp)]
    simp only [List.map_cons, List.map_nil, summarizeGroup, List.foldl_nil,
      loopSummaries]
    rw [if_neg (by rintro ⟨h1, -⟩; simp at h1; omega)]
  | succ n ih =>
    intro items hlen rn
    have hB := loopSummaries_absorb P items (P - 1) rn (sapStartTime rn)
      (by omega) (by omega)
    rw [show P - (P - 1) = 1 by omega] at hB
    rw [hB]
    by_cases hshort : items.length < P - 1
    · rw [if_pos hshort]
      rw [chunksOf_short P _ (by simp; omega) (by simp)]
      simp only [List.map_cons, List.map_nil]
      rw [show (decide ((rn :: items).length = P)) = false by simp; omega,
        summarize_incomplete, absorbFold_fst]
    · rw [if_neg hshort]
      rw [chunksOf_cons P rn items (by omega)]
      have etake : (rn :: items).take P = rn :: items.take (P - 1) := by
        obtain ⟨k, rfl⟩ : ∃ k, P = k + 1 := ⟨P - 1, by omega⟩
        simp [List.take_succ_cons]
      have edrop : (rn :: items).drop P = items.drop (P - 1) := by
        obtain ⟨k, rfl⟩ : ∃ k, P = k + 1 := ⟨P - 1, by omega⟩
        simp [List.drop_succ_cons]
      rw [etake, edrop]
      simp only [List.map_cons]
      congr 1
      · rw [show (decide ((rn :: items.take (P - 1)).length = P)) = true by
          simp [List.length_take]; omega]
        rw [summarize_eq_finalize]
      · cases hdrop : items.drop (P - 1) with
        | nil => simp [loopTail, chunksOf]; rfl
        | cons rn2 rest2 =>
          have hlen2 : rest2.length ≤ n := by
            have h2 := congrArg List.length hdrop
            simp only [List.length_drop, List.length_cons] at h2
            omega
          simp only [loopTail]
          rw [ih rest2 hlen2 rn2]

lemma loopSummaries_first_spec (P : Nat) (hP : 2 ≤ P)
    (leader : SegmentReference) (items : List SegmentReference) :
    loopSummaries P 0 leader (sapStartTime leader) items =
      sidxSubsegmentsSpec P (leader :: items) := by
  have hB := loopSummaries_absorb P items P leader (sapStartTime leader)
    (by omega) (Nat.le_refl P)
  rw [show P - P = 0 by omega] at hB
  rw [hB]
  simp only [sidxSubsegmentsSpec]
  by_cases hshort : items.length < P
  · rw [if_pos hshort]
    rw [show (decide (P ≤ items.length)) = false by simp; omega,
      List.take_of_length_le (by omega), List.drop_eq_nil_of_le (by omega),
      summarize_incomplete, absorbFold_fst]
    simp only [chunksOf, List.length_nil]
    rfl
  · rw [if_neg hshort]
    rw [show (decide (P ≤ items.length)) = true by simp; omega]
    congr 1
    · rw [summarize_eq_finalize]
    · cases hdrop : items.drop P with
      | nil => simp [loopTail, chunksOf]; rfl
      | cons rn2 rest2 =>
        simp only [loopTail]
        rw [loopSummaries_rest_spec P hP rest2.length rest2
          (Nat.le_refl _) rn2]

lemma loopSummaries_length_le (P : Nat) :
    ∀ (n : Nat) (items : List SegmentReference), items.length ≤ n →
    ∀ (f : Nat) (acc : SegmentReference) (fst : Nat),
    (loopSummaries P f acc fst items).length ≤ items.length + 1 := by
  intro n
  induction n with
  | zero =>
    intro items h f acc fst
    have : items = [] := List.eq_nil_of_length_eq_zero (by omega)
    subst this
    simp [loopSummaries]
  | succ n ih =>
    intro items h f acc fst
    cases items with
    | nil => simp [loopSummaries]
    | cons r rest =>
      simp only [List.length_cons] at h
      simp only [loopSummaries]
      split
      · cases rest with
        | nil => simp
        | cons rn rest2 =>
          simp only [List.length_cons] at h ⊢
          have h2 := ih rest2 (by omega) 1 rn (sapStartTime rn)
          omega
      · have h2 := ih rest (by omega) (f + 1)
          (loopAccStep acc r fst).1 (loopAccStep acc r fst).2
        simp only [List.length_cons]
        omega

/-- C6 (amended): for a positive `num_subsegments_per_sidx` and
`P = num_fragments_per_subsegment > 1`, the reference vector produced by
`DoFinalizeSegment` is exactly `sidxSubsegmentsSpec` — the groups of the
coalescing loop (first group `P + 1` fragments, later groups `P`, the last
group whatever remains), each summarized by `summarizeGroup` (sums, minimum
earliest presentation time, first known SAP type, and `sap_delta_time`
recomputed against the group's earliest presentation time only for complete
groups with a known SAP type, the leader's original delta being kept
otherwise) — followed by the original references left stale by the
`resize`, truncated to `num_subsegments_per_sidx` entries. -/
theorem claim_C6_sidx_sap_coalescing (numSub : Int) (sidx : SidxBoxModel)
    (hpos : 0 < numSub) (hne : 0 < sidx.references.size)
    (hP : 1 < (sidx.references.size - 1) / numSub.toNat + 1) :
    (doFinalizeSegmentSidx numSub sidx).references.toList =
      (sidxSubsegmentsSpec ((sidx.references.size - 1) / numSub.toNat + 1)
          sidx.references.toList ++
        sidx.references.toList.drop
          (sidxSubsegmentsSpec
            ((sidx.references.size - 1) / numSub.toNat + 1)
            sidx.references.toList).length).take numSub.toNat := by
  have hlenF : sidx.references.toList.length = sidx.references.size :=
    (arraySize_eq_toList _).symm
  have hN1 : 1 ≤ numSub.toNat := by omega
  have hNF : numSub.toNat < sidx.references.size := by
    by_contra hcon
    push_neg at hcon
    have : (sidx.references.size - 1) / numSub.toNat = 0 :=
      Nat.div_eq_of_lt (by omega)
    omega
  have hloop := coalesceLoop_toList
    ((sidx.references.size - 1) / numSub.toNat + 1)
    sidx.references.size sidx.references.toList sidx.references 1 0 0
    (sapStartTime (sidx.references.getD 0 default))
    rfl (by omega) (by omega)
    (fun j _ => arrayGetD_eq_toList sidx.references j default)
    (by omega)
  have hdecomp : sidx.references.toList =
      sidx.references.toList.getD 0 default ::
        sidx.references.toList.drop 1 := by
    have h0 := eq_take_getD_drop default sidx.references.toList 0 (by omega)
    simpa using h0
  have hspec := loopSummaries_first_spec
    ((sidx.references.size - 1) / numSub.toNat + 1) (by omega)
    (sidx.references.toList.getD 0 default) (sidx.references.toList.drop 1)
  rw [← hdecomp] at hspec
  rw [arrayGetD_eq_toList] at hloop
  rw [hspec] at hloop
  have hsumlen :
      (sidxSubsegmentsSpec ((sidx.references.size - 1) / numSub.toNat + 1)
        sidx.references.toList).length ≤ sidx.references.size := by
    rw [← hspec]
    have := loopSummaries_length_le
      ((sidx.references.size - 1) / numSub.toNat + 1)
      (sidx.references.toList.drop 1).length (sidx.references.toList.drop 1)
      (Nat.le_refl _) 0 (sidx.references.toList.getD 0 default)
      (sapStartTime (sidx.references.toList.getD 0 default))
    simp only [List.length_drop] at this
    omega
  simp only [doFinalizeSegmentSidx]
  rw [if_neg (by omega), if_neg (by omega)]
  simp only [vectorResize]
  rw [arrayGetD_eq_toList, hloop]
  simp only [List.take_zero, List.nil_append, Nat.zero_add]
  have hlen3 :
      (sidxSubsegmentsSpec ((sidx.references.size - 1) / numSub.toNat + 1)
          sidx.references.toList ++
        sidx.references.toList.drop
          (sidxSubsegmentsSpec
            ((sidx.references.size - 1) / numSub.toNat + 1)
            sidx.references.toList).length).length =
        sidx.references.size := by
    simp only [List.length_append, List.length_drop]
    omega
  rw [hlen3, show numSub.toNat - sidx.references.size = 0 by omega]
  simp

/-- Four references used to instantiate the amended C6 theorem. -/
def c6WitnessSidx : SidxBoxModel :=
  { earliest_presentation_time := 0
    references :=
      #[⟨1, 2, 40, 0, 0⟩, ⟨3, 4, 10, 1, 5⟩, ⟨5, 6, 20, 1, 0⟩,
        ⟨7, 8, 30, 0, 9⟩] }

/-- Witness for C6 at four references and `num_subsegments_per_sidx = 2`
(`P = 2`: groups of 3 and 1). -/
theorem claim_C6_witness :
    (doFinalizeSegmentSidx 2 c6WitnessSidx).references.toList =
      (sidxSubsegmentsSpec
          ((c6WitnessSidx.references.size - 1) / (2 : Int).toNat + 1)
          c6WitnessSidx.references.toList ++
        c6WitnessSidx.references.toList.drop
          (sidxSubsegmentsSpec
            ((c6WitnessSidx.references.size - 1) / (2 : Int).toNat + 1)
            c6WitnessSidx.references.toList).length).take (2 : Int).toNat :=
  claim_C6_sidx_sap_coalescing 2 c6WitnessSidx (by decide) (by decide)
    (by decide)

/-! ## MultiSegmentSegmenter::WriteSegment -/

/-- `Status` values: OK or an error with a code and message (only
`FILE_FAILURE` is constructed in this file). -/
inductive StatusModel
  | ok
  | error (code : String) (msg : String)
  deriving DecidableEq, Inhabited

/-- The listener callbacks invoked by `WriteSegment`. -/
inductive MuxerEvent
  | onSampleDurationReady (sampleDuration : Nat)
  | onNewSegment (fileName : String) (earliestPresentationTime : Nat)
      (segmentDuration : Nat) (segmentSize : Nat)
  deriving DecidableEq

/-- The items serialized into the segment buffer by `WriteSegment`. -/
inductive WrittenItem
  | styp
  | sidxBox (sidx : SidxBoxModel)
  | fragmentData
  deriving DecidableEq

/-- The `MuxerOptions` consulted by the multi-segment segmenter. -/
structure MuxerOptionsModel where
  segment_template : String
  output_file_name : String
  num_subsegments_per_sidx : Int
  bandwidth : Nat
  deriving DecidableEq, Inhabited

/-- Result of a `WriteSegment` call: the returned status, the listener
events, the buffer content destined for the segment file, and the warnings
that were only logged. -/
structure WriteSegmentResult where
  status : StatusModel
  events : List MuxerEvent
  written : List WrittenItem
  logs : List String
  deriving DecidableEq

/-- The `segment_duration` accumulation loop of `WriteSegment`: the sum of
`subsegment_duration` over all sidx references. -/
def sumSubsegmentDurations (refs : Array SegmentReference) : Nat :=
  refs.foldl (fun acc r => acc + r.subsegment_duration) 0

/-- `MultiSegmentSegmenter::WriteSegment` (multi_segment_segmenter.cc).
File I/O is abstracted: `openOk` is whether `File::Open` succeeds,
`bufferWriteStatus` and `fragmentWriteStatus` are the statuses of the two
`WriteToFile` calls (the second is consulted only when the first is OK, as
in the source), `closeOk` is the result of `File::Close`, and
`templatedName` stands for `GetSegmentName(...)`.  A failed close is only
logged; the listener is invoked only after both writes succeed, with the
segment duration equal to the sum of the sidx subsegment durations. -/
def writeSegment (opts : MuxerOptionsModel) (sidx : SidxBoxModel)
    (stypSize sidxSize fragmentBufferSize : Nat) (templatedName : String)
    (openOk : Bool) (bufferWriteStatus fragmentWriteStatus : StatusModel)
    (closeOk : Bool) (hasListener : Bool) (sampleDuration : Nat) :
    WriteSegmentResult :=
  let fileName := if opts.segment_template = "" then opts.output_file_name
    else templatedName
  if ¬openOk then
    { status := StatusModel.error "FILE_FAILURE"
        ("Cannot open file " ++ fileName)
      events := [], written := [], logs := [] }
  else
    let written :=
      (if opts.segment_template = "" then [] else [WrittenItem.styp]) ++
      (if 0 ≤ opts.num_subsegments_per_sidx then [WrittenItem.sidxBox sidx]
        else []) ++
      [WrittenItem.fragmentData]
    let bufferSize :=
      (if opts.segment_template = "" then 0 else stypSize) +
      (if 0 ≤ opts.num_subsegments_per_sidx then sidxSize else 0)
    let segmentSize := bufferSize + fragmentBufferSize
    let status := match bufferWriteStatus with
      | StatusModel.ok => fragmentWriteStatus
      | e => e
    let logs := if ¬closeOk then
        ["Failed to close the file properly: " ++ fileName]
      else []
    if status ≠ StatusModel.ok then
      { status := status, events := [], written := written, logs := logs }
    else
      { status := StatusModel.ok
        events := if hasListener then
            [MuxerEvent.onSampleDurationReady sampleDuration,
              MuxerEvent.onNewSegment fileName
                sidx.earliest_presentation_time
                (sumSubsegmentDurations sidx.references) segmentSize]
          else []
        written := written
        logs := logs }

/-- `DoFinalizeSegment` followed by `WriteSegment`. -/
def doFinalizeAndWriteSegment (opts : MuxerOptionsModel)
    (sidx : SidxBoxModel) (stypSize sidxSize fragmentBufferSize : Nat)
    (templatedName : String) (openOk : Bool)
    (bufferWriteStatus fragmentWriteStatus : StatusModel) (closeOk : Bool)
    (hasListener : Bool) (sampleDuration : Nat) : WriteSegmentResult :=
  writeSegment opts (doFinalizeSegmentSidx opts.num_subsegments_per_sidx sidx)
    stypSize sidxSize fragmentBufferSize templatedName openOk
    bufferWriteStatus fragmentWriteStatus closeOk hasListener sampleDuration

/-- The reference vectors of the sidx boxes present in the written items. -/
def writtenSidxRefs (items : List WrittenItem) :
    List (Array SegmentReference) :=
  items.filterMap (fun it => match it with
    | WrittenItem.sidxBox s => some s.references
    | _ => none)

/-- C7: a failure of `File::Close` is only logged — the returned status and
the listener events are independent of it; a buffer-write error is returned
unchanged even when the close also fails, and the second write is not
consulted; the listener is invoked only when the open and both writes
succeed, and the duration passed to `OnNewSegment` is the sum of
`subsegment_duration` over the sidx references. -/
theorem claim_C7_write_segment_error_handling (opts : MuxerOptionsModel)
    (sidx : SidxBoxModel) (stypSize sidxSize fragmentBufferSize : Nat)
    (templatedName : String) (openOk : Bool) (s1 s2 : StatusModel)
    (closeOk : Bool) (hasListener : Bool) (d : Nat) (code msg : String) :
    ((writeSegment opts sidx stypSize sidxSize fragmentBufferSize
        templatedName openOk s1 s2 false hasListener d).status =
      (writeSegment opts sidx stypSize sidxSize fragmentBufferSize
        templatedName openOk s1 s2 true hasListener d).status ∧
      (writeSegment opts sidx stypSize sidxSize fragmentBufferSize
        templatedName openOk s1 s2 false hasListener d).events =
      (writeSegment opts sidx stypSize sidxSize fragmentBufferSize
        templatedName openOk s1 s2 true hasListener d).events) ∧
    (writeSegment opts sidx stypSize sidxSize fragmentBufferSize
        templatedName true (StatusModel.error code msg) s2 false hasListener
        d).status = StatusModel.error code msg ∧
    (writeSegment opts sidx stypSize sidxSize fragmentBufferSize
        templatedName true (StatusModel.error code msg) s2 closeOk
        hasListener d).events = [] ∧
    (writeSegment opts sidx stypSize sidxSize fragmentBufferSize
        templatedName true StatusModel.ok (StatusModel.error code msg)
        closeOk hasListener d).events = [] ∧
    (writeSegment opts sidx stypSize sidxSize fragmentBufferSize
        templatedName false s1 s2 closeOk hasListener d).events = [] ∧
    (∃ nm sz,
      (writeSegment opts sidx stypSize sidxSize fragmentBufferSize
        templatedName true StatusModel.ok StatusModel.ok closeOk true
        d).events =
      [MuxerEvent.onSampleDurationReady d,
        MuxerEvent.onNewSegment nm sidx.earliest_presentation_time
          (sumSubsegmentDurations sidx.references) sz]) := by
  refine ⟨⟨?_, ?_⟩, ?_, ?_, ?_, ?_, ?_⟩
  · cases openOk <;> cases s1 <;> cases s2 <;> simp [writeSegment]
  · cases openOk <;> cases s1 <;> cases s2 <;> simp [writeSegment]
  · simp [writeSegment]
  · simp [writeSegment]
  · simp [writeSegment]
  · simp [writeSegment]
  · exact ⟨(if opts.segment_template = "" then opts.output_file_name
        else templatedName),
      ((if opts.segment_template = "" then 0 else stypSize) +
        (if 0 ≤ opts.num_subsegments_per_sidx then sidxSize else 0)) +
        fragmentBufferSize,
      by simp [writeSegment]⟩

/-- C8: when `num_subsegments_per_sidx` is negative no sidx box is written to
the segment; when it is zero the sidx box is written with the pre-generated
references unchanged — one per fragment, no coalescing. -/
theorem claim_C8_sidx_disabled_or_verbatim (opts : MuxerOptionsModel)
    (sidx : SidxBoxModel) (stypSize sidxSize fragmentBufferSize : Nat)
    (templatedName : String) (s1 s2 : StatusModel)
    (closeOk hasListener : Bool) (d : Nat) :
    (opts.num_subsegments_per_sidx < 0 →
      writtenSidxRefs (doFinalizeAndWriteSegment opts sidx stypSize sidxSize
        fragmentBufferSize templatedName true s1 s2 closeOk hasListener
        d).written = []) ∧
    (opts.num_subsegments_per_sidx = 0 →
      writtenSidxRefs (doFinalizeAndWriteSegment opts sidx stypSize sidxSize
        fragmentBufferSize templatedName true s1 s2 closeOk hasListener
        d).written = [sidx.references]) := by
  constructor
  · intro h
    simp only [doFinalizeAndWriteSegment, doFinalizeSegmentSidx,
      if_pos (show opts.num_subsegments_per_sidx ≤ 0 by omega)]
    simp only [writeSegment]
    rw [if_neg (by simp),
      if_neg (show ¬0 ≤ opts.num_subsegments_per_sidx by omega)]
    simp only [apply_ite WriteSegmentResult.written, ite_self,
      List.append_nil]
    split <;> simp [writtenSidxRefs]
  · intro h
    simp only [doFinalizeAndWriteSegment, doFinalizeSegmentSidx,
      if_pos (show opts.num_subsegments_per_sidx ≤ 0 by omega)]
    simp only [writeSegment]
    rw [if_neg (by simp),
      if_pos (show 0 ≤ opts.num_subsegments_per_sidx by omega)]
    simp only [apply_ite WriteSegmentResult.written, ite_self]
    split <;> simp [writtenSidxRefs]

/-- Witness for C8: with one pre-generated reference, `-1` writes no sidx box
and `0` writes it with the reference untouched. -/
theorem claim_C8_witness :
    writtenSidxRefs (doFinalizeAndWriteSegment
        { segment_template := "", output_file_name := "out.mp4",
          num_subsegments_per_sidx := -1, bandwidth := 0 }
        { earliest_presentation_time := 0, references := #[⟨1, 2, 3, 1, 0⟩] }
        4 5 6 "seg1.m4s" true StatusModel.ok StatusModel.ok true true
        7).written = [] ∧
    writtenSidxRefs (doFinalizeAndWriteSegment
        { segment_template := "", output_file_name := "out.mp4",
          num_subsegments_per_sidx := 0, bandwidth := 0 }
        { earliest_presentation_time := 0, references := #[⟨1, 2, 3, 1, 0⟩] }
        4 5 6 "seg1.m4s" true StatusModel.ok StatusModel.ok true true
        7).written =
      [(#[⟨1, 2, 3, 1, 0⟩] : Array SegmentReference)] :=
  ⟨(claim_C8_sidx_disabled_or_verbatim
      { segment_template := "", output_file_name := "out.mp4",
        num_subsegments_per_sidx := -1, bandwidth := 0 }
      { earliest_presentation_time := 0, references := #[⟨1, 2, 3, 1, 0⟩] }
      4 5 6 "seg1.m4s" StatusModel.ok StatusModel.ok true true 7).1
      (by decide),
    (claim_C8_sidx_disabled_or_verbatim
      { segment_template := "", output_file_name := "out.mp4",
        num_subsegments_per_sidx := 0, bandwidth := 0 }
      { earliest_presentation_time := 0, references := #[⟨1, 2, 3, 1, 0⟩] }
      4 5 6 "seg1.m4s" StatusModel.ok StatusModel.ok true true 7).2
      (by decide)⟩
